import Mathlib

/-!
Shallow embedding of the circular-board race game, translated from the two
Python source files of the repository:

* `FullCharacters.py` — 22-cell board (`GRID_COUNT = 22`), active players
  G–L, win by landing on cell 0, forced-stack records and stack-leadership
  skill.  Embedded in namespace `FC`.
* `main.py` — 23-cell board (`GRID_COUNT = 23`), players A–F, win when the
  cumulative step total reaches the track length, no forced stacks.
  Embedded in namespace `M`.

Machine integers are modelled as `Nat`/`Int`; Python `%` on a positive
modulus is `Int.emod`.  Python `dict`s are modelled as association lists;
Python exceptions (the `TypeError` raised by `is_last_place` when the
queried player is absent) are modelled with `Option`.  The pseudorandom
source is modelled as an oracle: indexed streams of floats, ints and
permutations together with consumption counters.
-/

namespace FC

/-- The twelve player identifiers appearing in `PLAYER_SKILLS` of
`FullCharacters.py` (only G–L are in `PLAYERS` and actually play). -/
inductive Player where
  | A | B | C | D | E | F | G | H | I | J | K | L
deriving DecidableEq, Repr

/-- `PLAYERS = ['G', 'H', 'I', 'J', 'K', 'L']` from `FullCharacters.py`. -/
def PLAYERS : List Player := [.G, .H, .I, .J, .K, .L]

/-- Skill kinds from the `PLAYER_SKILLS` table of `FullCharacters.py`. -/
inductive SkillType where
  | position_bonus | double_chance | late_move | elevate | solo_move
  | dice_2d3 | last_move_bonus | first_move_bonus | stack_leader
  | stack_dice | catch_up | half_chance
deriving DecidableEq, Repr

/-- The skill kind assigned to each player in `PLAYER_SKILLS`
(`FullCharacters.py`). -/
def skillType : Player → SkillType
  | .A => .position_bonus
  | .B => .double_chance
  | .C => .late_move
  | .D => .elevate
  | .E => .solo_move
  | .F => .dice_2d3
  | .G => .last_move_bonus
  | .H => .first_move_bonus
  | .I => .stack_leader
  | .J => .stack_dice
  | .K => .catch_up
  | .L => .half_chance

/-- Trigger probability of each player's skill (`prob` entries of
`PLAYER_SKILLS`), expressed in percent; players without a probabilistic
skill get 0, which is never consulted.  (Every probability constant in the
source is a whole percentage, and every `random.random()` draw feeds
exactly one comparison against such a constant, so drawing percent-scale
naturals represents every reachable branching.) -/
def skillProb : Player → ℕ
  | .B => 28
  | .C => 65
  | .D => 40
  | .E => 50
  | .J => 40
  | .K => 60
  | .L => 50
  | _ => 0

/-- `GRID_COUNT = 22` in `FullCharacters.py`. -/
def GRID_COUNT : ℕ := 22

/-- Game state of `CircularBoard` in `FullCharacters.py`: cell contents,
winner, per-player cumulative steps, the forced-stack records
(`active_stacks`, a dict from cell index to token group, modelled as an
association list) and the one-shot skill flags (`skill_states`). -/
structure Board where
  positions : List (List Player)
  winner : Option Player
  total_steps : Player → ℤ
  active_stacks : List (ℕ × List Player)
  skill_states : Player → Bool

/-- Lookup in the `active_stacks` dict. -/
def recLookup : List (ℕ × List Player) → ℕ → Option (List Player)
  | [], _ => none
  | (c, g) :: t, c' => if c = c' then some g else recLookup t c'

/-- `dict.pop` / key deletion in the `active_stacks` dict. -/
def recErase (l : List (ℕ × List Player)) (c : ℕ) : List (ℕ × List Player) :=
  l.filter (fun e => e.1 ≠ c)

/-- Dict assignment `active_stacks[c] = g` (overwrites any previous entry). -/
def recInsert (l : List (ℕ × List Player)) (c : ℕ) (g : List Player) :
    List (ℕ × List Player) :=
  (c, g) :: recErase l c

/-- `CircularBoard.reset` in `FullCharacters.py`. -/
def resetBoard : Board where
  positions := List.replicate GRID_COUNT []
  winner := none
  total_steps := fun _ => 0
  active_stacks := []
  skill_states := fun _ => false

/-- `CircularBoard.add_player`: append the token to the given cell's stack. -/
def add_player (b : Board) (p : Player) (pos : ℕ) : Board :=
  { b with positions := b.positions.set pos (b.positions.getD pos [] ++ [p]) }

/-- Helper for `find_player_position`: scan cells from index `i` upwards. -/
def findAux : List (List Player) → Player → ℕ → Option ℕ
  | [], _, _ => none
  | s :: t, p, i => if p ∈ s then some i else findAux t p (i + 1)

/-- `CircularBoard.find_player_position`: index of the first cell containing
the player, or `none`. -/
def findPos (b : Board) (p : Player) : Option ℕ :=
  findAux b.positions p 0

/-- `list.index` of Python (first occurrence); the Python call site is
guarded so the player is always present. -/
def idxIn (p : Player) : List Player → ℕ
  | [] => 0
  | q :: t => if q = p then 0 else idxIn p t + 1

/-- `CircularBoard.get_player_stack_size`. -/
def get_player_stack_size (b : Board) (p : Player) : ℕ :=
  match findPos b p with
  | some i => (b.positions.getD i []).length
  | none => 0

/-- `CircularBoard.is_last_place`.  Returns `none` when Python would raise a
`TypeError`: the queried player is absent (`player_pos is None`) while some
other player of `PLAYERS` is present, so the generator inside `all(...)`
evaluates `int >= None`. -/
def is_last_place (b : Board) (p : Player) : Option Bool :=
  let others := (PLAYERS.filter (· ≠ p)).filterMap (findPos b)
  match findPos b p with
  | some q => some (others.all (fun r => q ≤ r))
  | none => if others.isEmpty then some true else none

/-- Pointwise update of the `total_steps` dict. -/
def addSteps (b : Board) (p : Player) (k : ℤ) : Board :=
  { b with total_steps := fun q => if q = p then b.total_steps q + k else b.total_steps q }

/-- The `for p in group:` loop of `_handle_forced_stack_move`: increment each
member's step total and check victory, breaking at the first member found on
cell 0 (that member becomes the winner). -/
def stepLoop (k : ℤ) : List Player → Board → Board
  | [], b => b
  | q :: rest, b =>
    let b1 := addSteps b q k
    if findPos b1 q = some 0 then { b1 with winner := some q }
    else stepLoop k rest b1

/-- The state-mutation core of `_handle_forced_stack_move`: pop the record
at cell `c`, remove the group members from cell `c` (a list-comprehension
filter), and extend cell `n` with the recorded group. -/
def forcedMid (b : Board) (c n : ℕ) (g : List Player) : Board :=
  let b1 := { b with active_stacks := recErase b.active_stacks c }
  let src := b1.positions.getD c []
  let b2 := { b1 with positions := b1.positions.set c (src.filter (· ∉ g)) }
  let dst := b2.positions.getD n []
  { b2 with positions := b2.positions.set n (dst ++ g) }

/-- `CircularBoard._handle_forced_stack_move`: if the mover's current cell has
a pending forced-stack record containing the mover, pop the record, move the
whole group, then run the step/victory loop.  Returns `none` when the forced
branch does not apply (the Python method returns `False`). -/
def forcedStep (b : Board) (p : Player) (k : ℤ) : Option Board :=
  match findPos b p with
  | none => none
  | some c =>
    match recLookup b.active_stacks c with
    | none => none
    | some g =>
      if p ∈ g then
        some (stepLoop k g
          (forcedMid b c ((((c : ℤ) + k).emod (GRID_COUNT : ℤ)).toNat) g))
      else none

/-- The `move_stack` of `_perform_move`: `[player]` when solo, otherwise
the slice `current_stack[player_index:]`. -/
def movedStack (stack : List Player) (p : Player) (solo : Bool) : List Player :=
  if solo then [p] else stack.drop (idxIn p stack)

/-- The source cell after `del current_stack[player_index : player_index +
len(move_stack)]`. -/
def srcAfter (stack : List Player) (p : Player) (solo : Bool) : List Player :=
  if solo then stack.take (idxIn p stack) ++ stack.drop (idxIn p stack + 1)
  else stack.take (idxIn p stack)

/-- `CircularBoard._perform_move`: delete the moved sub-stack (the single
player when solo, the player and everything above it otherwise) from the
source cell, then extend the destination cell with it.  The destination is
read after the source deletion, matching Python's aliasing when
`new_idx == current_idx`. -/
def performMove (b : Board) (p : Player) (c n : ℕ) (solo : Bool) : Board :=
  let stack := b.positions.getD c []
  let moved := movedStack stack p solo
  let src := srcAfter stack p solo
  let b1 := { b with positions := b.positions.set c src }
  let dst := b1.positions.getD n []
  { b1 with positions := b1.positions.set n (dst ++ moved) }

/-- `CircularBoard._check_stack_skills`: the one-shot stack-leadership
trigger, firing when the mover's skill is `stack_leader`, its flag is unset,
and the destination cell now holds more than one token. -/
def checkStackSkills (b : Board) (p : Player) (n : ℕ) : Board :=
  if skillType p = .stack_leader ∧ b.skill_states p = false ∧
      1 < (b.positions.getD n []).length then
    { b with active_stacks := recInsert b.active_stacks n (b.positions.getD n []),
             skill_states := fun q => if q = p then true else b.skill_states q }
  else b

/-- `CircularBoard.move_player` of `FullCharacters.py`. -/
def move_player (b : Board) (p : Player) (k : ℤ) (solo : Bool) : Board :=
  if b.winner.isSome then b
  else
    match forcedStep b p k with
    | some b' => b'
    | none =>
      match findPos b p with
      | none => b
      | some c =>
        let b1 := addSteps b p k
        let n := (((c : ℤ) + k).emod (GRID_COUNT : ℤ)).toNat
        let b2 := performMove b1 p c n solo
        if n = 0 then { b2 with winner := some p }
        else checkStackSkills b2 p n

end FC

namespace M

/-- The six player identifiers of `main.py` (`PLAYERS = ['A', ..., 'F']`). -/
inductive Player where
  | A | B | C | D | E | F
deriving DecidableEq, Repr

/-- `PLAYERS` of `main.py`. -/
def PLAYERS : List Player := [.A, .B, .C, .D, .E, .F]

/-- Skill kinds of the `PLAYER_SKILLS` table of `main.py`. -/
inductive SkillType where
  | position_bonus | double_chance | late_move | elevate | solo_move | dice_2d3
deriving DecidableEq, Repr

/-- Skill kind per player (`PLAYER_SKILLS` of `main.py`). -/
def skillType : Player → SkillType
  | .A => .position_bonus
  | .B => .double_chance
  | .C => .late_move
  | .D => .elevate
  | .E => .solo_move
  | .F => .dice_2d3

/-- Trigger probabilities (`prob` entries) of `main.py`, in percent (see
`FC.skillProb` for why percent granularity is faithful). -/
def skillProb : Player → ℕ
  | .B => 28
  | .C => 65
  | .D => 40
  | .E => 50
  | _ => 0

/-- `GRID_COUNT = 23` in `main.py`. -/
def GRID_COUNT : ℕ := 23

/-- Game state of `CircularBoard` in `main.py`: cell contents, winner and
per-player cumulative steps (no forced stacks, no skill flags). -/
structure Board where
  positions : List (List Player)
  winner : Option Player
  total_steps : Player → ℤ

/-- `CircularBoard.reset` in `main.py`. -/
def resetBoard : Board where
  positions := List.replicate GRID_COUNT []
  winner := none
  total_steps := fun _ => 0

/-- `CircularBoard.add_player` in `main.py`. -/
def add_player (b : Board) (p : Player) (pos : ℕ) : Board :=
  { b with positions := b.positions.set pos (b.positions.getD pos [] ++ [p]) }

/-- Cell scan helper, as in `FC.findAux`. -/
def findAux : List (List Player) → Player → ℕ → Option ℕ
  | [], _, _ => none
  | s :: t, p, i => if p ∈ s then some i else findAux t p (i + 1)

/-- `CircularBoard.find_player_position` in `main.py`. -/
def findPos (b : Board) (p : Player) : Option ℕ :=
  findAux b.positions p 0

/-- Python `list.index` (first occurrence), used at a guarded call site. -/
def idxIn (p : Player) : List Player → ℕ
  | [] => 0
  | q :: t => if q = p then 0 else idxIn p t + 1

/-- `CircularBoard.get_player_stack_size` in `main.py`. -/
def get_player_stack_size (b : Board) (p : Player) : ℕ :=
  match findPos b p with
  | some i => (b.positions.getD i []).length
  | none => 0

/-- `CircularBoard.is_last_place` in `main.py`; `none` models the
`TypeError` raised when the queried player is absent while another player
is present. -/
def is_last_place (b : Board) (p : Player) : Option Bool :=
  let others := (PLAYERS.filter (· ≠ p)).filterMap (findPos b)
  match findPos b p with
  | some q => some (others.all (fun r => q ≤ r))
  | none => if others.isEmpty then some true else none

/-- `CircularBoard.move_player` in `main.py`.  Note the order of effects:
the step total is incremented and the step-count win condition
(`total_steps >= GRID_COUNT`) is checked, returning early, BEFORE the
sub-stack is relocated. -/
def move_player (b : Board) (p : Player) (k : ℤ) (solo : Bool) : Board :=
  if b.winner.isSome then b
  else
    match findPos b p with
    | none => b
    | some c =>
      let b1 : Board :=
        { b with total_steps := fun q => if q = p then b.total_steps q + k else b.total_steps q }
      if (GRID_COUNT : ℤ) ≤ b1.total_steps p then { b1 with winner := some p }
      else
        let n := (((c : ℤ) + k).emod (GRID_COUNT : ℤ)).toNat
        let stack := b1.positions.getD c []
        let i := idxIn p stack
        let moved := if solo then [p] else stack.drop i
        let src := if solo then stack.take i ++ stack.drop (i + 1) else stack.take i
        let b2 : Board := { b1 with positions := b1.positions.set c src }
        let dst := b2.positions.getD n []
        { b2 with positions := b2.positions.set n (dst ++ moved) }

end M

namespace FC

/-- Pseudorandom oracle: streams of float draws (`random.random`), integer
draws (`random.randint` / `random.choice`) and permutation draws
(`random.sample`), with a consumption counter for each stream. -/
structure RNG where
  floatSrc : ℕ → ℕ
  intSrc : ℕ → ℕ
  permSrc : ℕ → List Player
  nf : ℕ
  ni : ℕ
  np : ℕ

/-- One call of `random.random()`, at percent granularity: the draw is a
natural below 100, compared against whole-percent thresholds. -/
def popFloat (r : RNG) : ℕ × RNG :=
  (r.floatSrc r.nf, { r with nf := r.nf + 1 })

/-- One call of `random.randint(a, b)` (inclusive bounds). -/
def randint (a b : ℕ) (r : RNG) : ℤ × RNG :=
  ((a + r.intSrc r.ni % (b - a + 1) : ℕ), { r with ni := r.ni + 1 })

/-- One call of `random.choice((x, y))`. -/
def choice2 (x y : ℤ) (r : RNG) : ℤ × RNG :=
  (if r.intSrc r.ni % 2 = 0 then x else y, { r with ni := r.ni + 1 })

/-- One call of `random.sample(PLAYERS, len(PLAYERS))`. -/
def sample (r : RNG) : List Player × RNG :=
  (r.permSrc r.np, { r with np := r.np + 1 })

/-- `GameVisualization._roll_dice` of `FullCharacters.py`. -/
def roll_dice (p : Player) (r : RNG) : ℤ × RNG :=
  if skillType p = .dice_2d3 then randint 2 3 r
  else if skillType p = .stack_dice then choice2 1 3 r
  else randint 1 3 r

/-- The `turn_info` dict passed to `apply_pre_skills`. -/
structure TurnInfo where
  is_first : Bool
  is_last : Bool

/-- `GameLogic.apply_pre_skills` of `FullCharacters.py`: the first/last-mover
bonus chain followed by the `skill_handlers` dispatch (only the selected
handler runs, so randomness is consumed only on the selected branch; the
`position_bonus` handler calls `is_last_place`, which can raise —
modelled by `none`). -/
def apply_pre_skills (p : Player) (b : Board) (base : ℤ) (ti : TurnInfo)
    (r : RNG) : Option (ℤ × RNG) :=
  let steps :=
    if skillType p = .last_move_bonus ∧ ti.is_last then base + 2
    else if skillType p = .first_move_bonus ∧ ti.is_first then base + 2
    else base
  match skillType p with
  | .position_bonus =>
    match is_last_place b p with
    | none => none
    | some v => some (if v then steps + 3 else steps, r)
  | .double_chance =>
    let (q, r') := popFloat r
    some (if q < skillProb p then steps * 2 else steps, r')
  | .solo_move =>
    let (q, r') := popFloat r
    some (if q < skillProb p then steps + ((get_player_stack_size b p : ℤ) - 1) else steps, r')
  | .half_chance =>
    let (q, r') := popFloat r
    some (if q < skillProb p then steps + 1 else steps, r')
  | .stack_dice =>
    if 1 < get_player_stack_size b p then
      let (q, r') := popFloat r
      some (if q < skillProb p then steps + 2 else steps, r')
    else some (steps, r)
  | .catch_up =>
    if b.skill_states p then
      let (q, r') := popFloat r
      some (if q < skillProb p then steps + 2 else steps, r')
    else some (steps, r)
  | _ => some (steps, r)

/-- `GameVisualization._check_solo_move` of `FullCharacters.py`: a fresh
`random.random()` draw, independent of the draw made by the `solo_move`
handler inside `apply_pre_skills`. -/
def check_solo_move (p : Player) (r : RNG) : Bool × RNG :=
  if skillType p = .solo_move then
    let (q, r') := popFloat r
    (decide (q < skillProb p), r')
  else (false, r)

/-- `GameLogic.apply_post_skills` of `FullCharacters.py`: the `catch_up` flag
trigger (which consults `is_last_place` and can therefore raise) followed by
the probabilistic `elevate` repositioning. -/
def apply_post_skills (p : Player) (b : Board) (r : RNG) : Option (Board × RNG) :=
  let idx := findPos b p
  let step1 : Option Board :=
    if skillType p = .catch_up ∧ b.skill_states p = false then
      match is_last_place b p with
      | none => none
      | some v =>
        some (if v then
          { b with skill_states := fun q => if q = p then true else b.skill_states q }
        else b)
    else some b
  match step1 with
  | none => none
  | some b1 =>
    if skillType p = .elevate then
      match idx with
      | some i =>
        let (q, r') := popFloat r
        let stack := b1.positions.getD i []
        if q < skillProb p ∧ stack ≠ [] ∧ p ∈ stack then
          some ({ b1 with positions := b1.positions.set i (stack.erase p ++ [p]) }, r')
        else some (b1, r')
      | none => some (b1, r)
    else some (b1, r)

/-- `GameVisualization.process_turn` of `FullCharacters.py`: dice roll,
pre-move skills, solo decision, board move, post-move skills. -/
def process_turn (p : Player) (ti : TurnInfo) (b : Board) (r : RNG) :
    Option (Board × RNG) :=
  let (dice, r1) := roll_dice p r
  match apply_pre_skills p b dice ti r1 with
  | none => none
  | some (steps, r2) =>
    let (solo, r3) := check_solo_move p r2
    let b1 := move_player b p steps solo
    apply_post_skills p b1 r3

/-- Scan of `adjust_move_order`: find the position of the first `C` whose
stack-index check passes and whose 0.65 draw succeeds; draws are consumed
only when the stack-index check passes (Python short-circuit). -/
def adjustScan (b : Board) : List Player → ℕ → RNG → Option ℕ × RNG
  | [], _, r => (none, r)
  | p :: rest, i, r =>
    if p = .C ∧ skillType p = .late_move then
      match findPos b p with
      | some idx =>
        if 0 < idxIn p (b.positions.getD idx []) then
          let (q, r') := popFloat r
          if q < 65 then (some i, r')
          else adjustScan b rest (i + 1) r'
        else adjustScan b rest (i + 1) r
      | none => adjustScan b rest (i + 1) r
    else adjustScan b rest (i + 1) r

/-- `ordered.append(ordered.pop(i))`. -/
def moveToEnd (l : List Player) (i : ℕ) : List Player :=
  (l.take i ++ l.drop (i + 1)) ++ [l.getD i .A]

/-- `GameVisualization.adjust_move_order` of `FullCharacters.py` (a no-op in
actual runs since `C` is not in `PLAYERS`, embedded nonetheless). -/
def adjust_move_order (b : Board) (ord : List Player) (r : RNG) :
    List Player × RNG :=
  match adjustScan b ord 0 r with
  | (some i, r') => (moveToEnd ord i, r')
  | (none, r') => (ord, r')

/-- `GameVisualization.initialize_players` of `FullCharacters.py`: clear the
cells, then add the members of `PLAYERS` occurring in `base_order` in
reverse order, all at cell 1. -/
def init_players (b : Board) (base : List Player) : Board :=
  let b1 := { b with positions := List.replicate GRID_COUNT ([] : List Player) }
  (base.reverse.filter (· ∈ PLAYERS)).foldl (fun acc p => add_player acc p 1) b1

/-- The `for i, player in enumerate(current_order)` loop of one round of
`run_game`: process each turn in order, aborting the round when a winner
appears; `total` is the length of the round's order (for `is_last`). -/
def runRoundAux (total : ℕ) : List Player → ℕ → Board → RNG → Option (Board × RNG)
  | [], _, b, r => some (b, r)
  | p :: rest, i, b, r =>
    if b.winner.isSome then some (b, r)
    else
      match process_turn p ⟨decide (i = 0), decide (i = total - 1)⟩ b r with
      | none => none
      | some (b', r') => runRoundAux total rest (i + 1) b' r'

/-- The `while not self.board.winner` loop of `run_game` in
`FullCharacters.py`, fuel-indexed.  Each iteration draws a FRESH base order
with `random.sample`, adjusts it, and plays the round.  Returns the final
outcome (`none` models an uncaught exception) together with the list of the
base orders used, one entry per started round. -/
def runLoop : ℕ → Board → RNG → Option (Board × RNG) × List (List Player)
  | 0, b, r => (some (b, r), [])
  | fuel + 1, b, r =>
    if b.winner.isSome then (some (b, r), [])
    else
      let (ord, r1) := sample r
      let (cur, r2) := adjust_move_order b ord r1
      match runRoundAux cur.length cur 0 b r2 with
      | none => (none, [ord])
      | some (b2, r3) =>
        let (res, tr) := runLoop fuel b2 r3
        (res, ord :: tr)

/-- `GameVisualization.run_game` of `FullCharacters.py`: reset, draw a base
order, adjust it (the result is stored but unused), place the players, then
run the round loop. -/
def run_game (fuel : ℕ) (r : RNG) : Option (Board × RNG) × List (List Player) :=
  let b := resetBoard
  let (base, r1) := sample r
  let (_, r2) := adjust_move_order b base r1
  let b1 := init_players b base
  runLoop fuel b1 r2

end FC

namespace M

/-- Pseudorandom oracle for the `main.py` variant (permutations are over its
six players). -/
structure RNG where
  floatSrc : ℕ → ℕ
  intSrc : ℕ → ℕ
  permSrc : ℕ → List Player
  nf : ℕ
  ni : ℕ
  np : ℕ

/-- One call of `random.random()`, at percent granularity: the draw is a
natural below 100, compared against whole-percent thresholds. -/
def popFloat (r : RNG) : ℕ × RNG :=
  (r.floatSrc r.nf, { r with nf := r.nf + 1 })

/-- One call of `random.randint(a, b)`. -/
def randint (a b : ℕ) (r : RNG) : ℤ × RNG :=
  ((a + r.intSrc r.ni % (b - a + 1) : ℕ), { r with ni := r.ni + 1 })

/-- One call of `random.sample(PLAYERS, len(PLAYERS))`. -/
def sample (r : RNG) : List Player × RNG :=
  (r.permSrc r.np, { r with np := r.np + 1 })

/-- `GameVisualization.roll_dice` of `main.py`. -/
def roll_dice (p : Player) (r : RNG) : ℤ × RNG :=
  if skillType p = .dice_2d3 then randint 2 3 r else randint 1 3 r

/-- `GameVisualization.apply_pre_skills` of `main.py`: the `if/elif` chain.
The `position_bonus` branch consults `is_last_place` (which can raise:
`none`); the `double_chance` and `solo_move` branches each consume one
fresh float draw. -/
def apply_pre_skills (p : Player) (b : Board) (base : ℤ) (r : RNG) :
    Option (ℤ × RNG) :=
  match skillType p with
  | .position_bonus =>
    match is_last_place b p with
    | none => none
    | some v => some (if v then base + 3 else base, r)
  | .double_chance =>
    let (q, r') := popFloat r
    some (if q < skillProb p then base * 2 else base, r')
  | .solo_move =>
    let (q, r') := popFloat r
    some (if q < skillProb p then base + ((get_player_stack_size b p : ℤ) - 1) else base, r')
  | _ => some (base, r)

/-- `GameVisualization.check_solo_move` of `main.py`: a separate
`random.random()` draw, independent of the one made inside
`apply_pre_skills`. -/
def check_solo_move (p : Player) (r : RNG) : Bool × RNG :=
  if skillType p = .solo_move then
    let (q, r') := popFloat r
    (decide (q < skillProb p), r')
  else (false, r)

/-- `GameVisualization.apply_post_skills` of `main.py` (`elevate` only). -/
def apply_post_skills (p : Player) (b : Board) (r : RNG) : Board × RNG :=
  if skillType p = .elevate then
    let (q, r') := popFloat r
    if q < skillProb p then
      match findPos b p with
      | some i =>
        let stack := b.positions.getD i []
        if p ∈ stack then
          ({ b with positions := b.positions.set i (stack.erase p ++ [p]) }, r')
        else (b, r')
      | none => (b, r')
    else (b, r')
  else (b, r)

/-- `GameVisualization.process_turn` of `main.py`. -/
def process_turn (p : Player) (b : Board) (r : RNG) : Option (Board × RNG) :=
  let (dice, r1) := roll_dice p r
  match apply_pre_skills p b dice r1 with
  | none => none
  | some (steps, r2) =>
    let (solo, r3) := check_solo_move p r2
    let b1 := move_player b p steps solo
    some (apply_post_skills p b1 r3)

/-- Scan of `adjust_move_order` of `main.py` (same structure as the
`FullCharacters.py` one). -/
def adjustScan (b : Board) : List Player → ℕ → RNG → Option ℕ × RNG
  | [], _, r => (none, r)
  | p :: rest, i, r =>
    if p = .C ∧ skillType p = .late_move then
      match findPos b p with
      | some idx =>
        if 0 < idxIn p (b.positions.getD idx []) then
          let (q, r') := popFloat r
          if q < 65 then (some i, r')
          else adjustScan b rest (i + 1) r'
        else adjustScan b rest (i + 1) r
      | none => adjustScan b rest (i + 1) r
    else adjustScan b rest (i + 1) r

/-- `ordered.append(ordered.pop(i))`. -/
def moveToEnd (l : List Player) (i : ℕ) : List Player :=
  (l.take i ++ l.drop (i + 1)) ++ [l.getD i .A]

/-- `GameVisualization.adjust_move_order` of `main.py`. -/
def adjust_move_order (b : Board) (ord : List Player) (r : RNG) :
    List Player × RNG :=
  match adjustScan b ord 0 r with
  | (some i, r') => (moveToEnd ord i, r')
  | (none, r') => (ord, r')

/-- `GameVisualization.initialize_players` of `main.py`: the fixed starting
layout A at 0, C and B at 22, E and D at 21, F at 20. -/
def init_players (b : Board) : Board :=
  let b0 := { b with positions := List.replicate GRID_COUNT ([] : List Player) }
  let b1 := add_player b0 .A 0
  let b2 := add_player b1 .C 22
  let b3 := add_player b2 .B 22
  let b4 := add_player b3 .E 21
  let b5 := add_player b4 .D 21
  add_player b5 .F 20

/-- One round's `for player in current_order` loop of `run_game` in
`main.py`. -/
def runRound : List Player → Board → RNG → Option (Board × RNG)
  | [], b, r => some (b, r)
  | p :: rest, b, r =>
    if b.winner.isSome then some (b, r)
    else
      match process_turn p b r with
      | none => none
      | some (b', r') => runRound rest b' r'

/-- The `while not self.board.winner` loop of `run_game` in `main.py`,
fuel-indexed.  Every iteration reuses the SAME stored `initial_order` `io`
(drawn once, before the loop) as the round's base order; no permutation is
drawn inside the loop.  Returns the outcome together with the base order
used by each started round. -/
def runLoop : ℕ → List Player → Board → RNG → Option (Board × RNG) × List (List Player)
  | 0, _, b, r => (some (b, r), [])
  | fuel + 1, io, b, r =>
    if b.winner.isSome then (some (b, r), [])
    else
      let (cur, r1) := adjust_move_order b io r
      match runRound cur b r1 with
      | none => (none, [io])
      | some (b2, r2) =>
        let (res, tr) := runLoop fuel io b2 r2
        (res, io :: tr)

/-- `GameVisualization.run_game` of `main.py`: reset, place the players,
draw `initial_order` once, then loop, reusing that order every round. -/
def run_game (fuel : ℕ) (r : RNG) : Option (Board × RNG) × List (List Player) :=
  let b := resetBoard
  let b1 := init_players b
  let (io, r1) := sample r
  runLoop fuel io b1 r1

end M

/-! ### Invariant definitions -/

namespace FC

/-- Occupancy: the concatenation of all cell contents contains each member
of `PLAYERS` exactly once and nothing else. -/
def occInv (b : Board) : Prop :=
  ∀ x : Player, b.positions.flatten.count x = if x ∈ PLAYERS then 1 else 0

/-- Forced-stack bookkeeping invariant: every recorded group (as consulted
through dict lookup) is a prefix of its cell's current stack. -/
def recInv (b : Board) : Prop :=
  ∀ c g, recLookup b.active_stacks c = some g → g <+: b.positions.getD c []

/-- The inductive invariant preserved by `move_player`. -/
def Inv (b : Board) : Prop :=
  occInv b ∧ recInv b ∧ b.positions.length = GRID_COUNT

/-- `reset` followed by one `add_player` per placement. -/
def place_all (places : List (Player × ℕ)) : Board :=
  places.foldl (fun acc pc => add_player acc pc.1 pc.2) resetBoard

/-- A sequence of `move_player` calls. -/
def run_moves (b : Board) (cmds : List (Player × ℤ × Bool)) : Board :=
  cmds.foldl (fun acc c => move_player acc c.1 c.2.1 c.2.2) b

/-! ### Concrete example states -/

/-- Board with a forced-stack record at cell 1 covering the stack `[I, G]`
located there; the remaining players stand elsewhere so that the full
occupancy invariant holds. -/
def exForced : Board :=
  ⟨((((List.replicate 22 []).set 1 [.I, .G]).set 5 [.H, .J]).set 9 [.K]).set 10
      [.L],
   none, fun _ => 0, [(1, [.I, .G])], fun _ => false⟩

/-- Board with `I` alone at cell 2 and `G` alone at cell 3. -/
def exLeader : Board :=
  ⟨((List.replicate 22 []).set 2 [.I]).set 3 [.G], none, fun _ => 0,
   [], fun _ => false⟩

/-- Board with the stack `[G, H, K]` at cell 2 (`H` in the middle) and `L`
alone at cell 7, no records. -/
def exStack : Board :=
  ⟨((List.replicate 22 []).set 2 [.G, .H, .K]).set 7 [.L], none, fun _ => 0,
   [], fun _ => false⟩

/-- A frozen board: the winner is already set. -/
def exFrozen : Board :=
  ⟨(List.replicate 22 []).set 4 [.G, .H], some .G, fun _ => 3,
   [(4, [.G, .H])], fun _ => false⟩

/-- An oracle whose permutation draws alternate between two orders. -/
def exRunRng : RNG :=
  ⟨fun _ => 99, fun _ => 0,
   fun n => if n % 2 = 0 then PLAYERS else [.L, .K, .J, .I, .H, .G], 0, 0, 0⟩

end FC

namespace M

/-- Board on which `A` (at cell 5) is about to hit the step-count win:
its step total is already 20 of the 23 required. -/
def exWin : Board :=
  ⟨(List.replicate 23 []).set 5 [.A], none, fun p => if p = .A then 20 else 0⟩

/-- A frozen `main.py` board. -/
def exFrozen : Board :=
  ⟨(List.replicate 23 []).set 4 [.A, .B], some .A, fun _ => 5⟩

/-- Board with `E` at the bottom of a two-token stack at cell 1. -/
def exSolo : Board :=
  ⟨(List.replicate 23 []).set 1 [.E, .D], none, fun _ => 0⟩

/-- Oracle for the solo-move counterexample: the first float draw (0.40) is
below `E`'s probability 0.50, the second (0.60) is not. -/
def exSoloRng : RNG :=
  ⟨fun n => if n = 0 then 40 else 60, fun _ => 0, fun _ => PLAYERS, 0, 0, 0⟩

/-- Oracle for the turn-order counterexample: no skill ever triggers, all
dice are minimal, and the permutation stream yields `PLAYERS` first and a
different order ever after. -/
def exRunRng : RNG :=
  ⟨fun _ => 99, fun _ => 0,
   fun n => if n = 0 then PLAYERS else [.F, .E, .D, .C, .B, .A], 0, 0, 0⟩

end M

namespace FC

/-! ### Basic lemmas about the board primitives -/

theorem findAux_mem : ∀ (l : List (List Player)) (p : Player) (i j : ℕ),
    findAux l p i = some j → i ≤ j ∧ p ∈ l.getD (j - i) [] := by
  intro l
  induction l with
  | nil => intro p i j h; simp [findAux] at h
  | cons s t ih =>
    intro p i j h
    by_cases hp : p ∈ s
    · simp [findAux, hp] at h
      subst h
      simp [hp]
    · simp [findAux, hp] at h
      obtain ⟨h1, h2⟩ := ih p (i + 1) j h
      refine ⟨by omega, ?_⟩
      have : j - i = (j - (i + 1)) + 1 := by omega
      rw [this]
      simpa using h2

theorem findPos_mem {b : Board} {p : Player} {c : ℕ}
    (h : findPos b p = some c) : p ∈ b.positions.getD c [] := by
  have := findAux_mem b.positions p 0 c h
  simpa using this.2

theorem findAux_lt : ∀ (l : List (List Player)) (p : Player) (i j : ℕ),
    findAux l p i = some j → j - i < l.length := by
  intro l
  induction l with
  | nil => intro p i j h; simp [findAux] at h
  | cons s t ih =>
    intro p i j h
    by_cases hp : p ∈ s
    · simp [findAux, hp] at h
      simp only [List.length_cons]
      omega
    · simp [findAux, hp] at h
      have := ih p (i + 1) j h
      have h2 := (findAux_mem t p (i + 1) j h).1
      simp only [List.length_cons]
      omega

theorem findPos_lt {b : Board} {p : Player} {c : ℕ}
    (h : findPos b p = some c) : c < b.positions.length := by
  have := findAux_lt b.positions p 0 c h
  simpa using this

theorem getD_set_self {α : Type} :
    ∀ (l : List α) (i : ℕ) (x d : α), i < l.length → (l.set i x).getD i d = x := by
  intro l
  induction l with
  | nil => intro i x d h; simp at h
  | cons a t ih =>
    intro i x d h
    cases i with
    | zero => simp
    | succ j =>
      simp only [List.set_cons_succ, List.getD_cons_succ]
      exact ih j x d (by simpa using h)

theorem getD_set_ne {α : Type} :
    ∀ (l : List α) (i j : ℕ) (x d : α), i ≠ j → (l.set i x).getD j d = l.getD j d := by
  intro l
  induction l with
  | nil => intro i j x d _; simp
  | cons a t ih =>
    intro i j x d h
    cases i with
    | zero =>
      cases j with
      | zero => exact absurd rfl h
      | succ j2 => simp
    | succ i2 =>
      cases j with
      | zero => simp
      | succ j2 =>
        simp only [List.set_cons_succ, List.getD_cons_succ]
        exact ih i2 j2 x d (by omega)

theorem idxIn_drop : ∀ (l : List Player) (p : Player), p ∈ l →
    l.drop (idxIn p l) = p :: l.drop (idxIn p l + 1) := by
  intro l
  induction l with
  | nil => intro p h; simp at h
  | cons q t ih =>
    intro p h
    by_cases hqp : q = p
    · subst hqp; simp [idxIn]
    · have hpt : p ∈ t := by
        rcases List.mem_cons.mp h with h1 | h1
        · exact absurd h1.symm hqp
        · exact h1
      simp only [idxIn, if_neg hqp, List.drop_succ_cons]
      exact ih p hpt

theorem idxIn_lt_length : ∀ (l : List Player) (p : Player), p ∈ l →
    idxIn p l < l.length := by
  intro l
  induction l with
  | nil => intro p h; simp at h
  | cons q t ih =>
    intro p h
    by_cases hqp : q = p
    · simp [idxIn, hqp]
    · have hpt : p ∈ t := by
        rcases List.mem_cons.mp h with h1 | h1
        · exact absurd h1.symm hqp
        · exact h1
      have := ih p hpt
      simp only [idxIn, if_neg hqp, List.length_cons]
      omega

theorem take_idxIn_append (l : List Player) (p : Player) (h : p ∈ l) :
    l.take (idxIn p l) ++ (p :: l.drop (idxIn p l + 1)) = l := by
  conv_rhs => rw [← List.take_append_drop (idxIn p l) l]
  rw [idxIn_drop l p h]

theorem idxIn_ge_of_prefix : ∀ (g l : List Player) (p : Player),
    g <+: l → p ∉ g → g.length ≤ idxIn p l := by
  intro g
  induction g with
  | nil => intro l p _ _; simp
  | cons a g2 ih =>
    intro l p hpre hnp
    obtain ⟨t, ht⟩ := hpre
    subst ht
    have hap : ¬ a = p := by
      intro h; exact hnp (by simp [h])
    simp only [List.cons_append, idxIn, if_neg hap, List.length_cons,
      List.append_eq]
    have : g2.length ≤ idxIn p (g2 ++ t) :=
      ih (g2 ++ t) p ⟨t, rfl⟩ (fun hc => hnp (by simp [hc]))
    omega

theorem prefix_take_of_le (g l : List Player) (j : ℕ)
    (hpre : g <+: l) (hj : g.length ≤ j) : g <+: l.take j := by
  obtain ⟨t, ht⟩ := hpre
  subst ht
  rw [List.take_append_eq_append_take]
  have : g.take j = g := List.take_of_length_le hj
  rw [this]
  exact ⟨t.take (j - g.length), rfl⟩

theorem checkStackSkills_positions (b : Board) (p : Player) (n : ℕ) :
    (checkStackSkills b p n).positions = b.positions := by
  unfold checkStackSkills
  split <;> rfl

theorem performMove_positions (b : Board) (p : Player) (c n : ℕ) (solo : Bool) :
    (performMove b p c n solo).positions =
      (b.positions.set c (srcAfter (b.positions.getD c []) p solo)).set n
        ((b.positions.set c (srcAfter (b.positions.getD c []) p solo)).getD n [] ++
          movedStack (b.positions.getD c []) p solo) := rfl

theorem move_player_regular (b : Board) (p : Player) (c : ℕ) (k : ℤ) (solo : Bool)
    (hw : b.winner = none) (hf : forcedStep b p k = none)
    (hc : findPos b p = some c) :
    move_player b p k solo =
      (if (((c : ℤ) + k).emod (GRID_COUNT : ℤ)).toNat = 0 then
        { performMove (addSteps b p k) p c
            ((((c : ℤ) + k).emod (GRID_COUNT : ℤ)).toNat) solo with winner := some p }
      else
        checkStackSkills
          (performMove (addSteps b p k) p c
            ((((c : ℤ) + k).emod (GRID_COUNT : ℤ)).toNat) solo) p
          ((((c : ℤ) + k).emod (GRID_COUNT : ℤ)).toNat)) := by
  unfold move_player
  simp only [hw, hf, hc, Option.isSome_none, Bool.false_eq_true, if_false]

theorem move_player_regular_positions (b : Board) (p : Player) (c n : ℕ)
    (k : ℤ) (solo : Bool)
    (hw : b.winner = none) (hf : forcedStep b p k = none)
    (hc : findPos b p = some c)
    (hn : (((c : ℤ) + k).emod (GRID_COUNT : ℤ)).toNat = n) :
    (move_player b p k solo).positions =
      (performMove (addSteps b p k) p c n solo).positions := by
  rw [move_player_regular b p c k solo hw hf hc, hn]
  by_cases h0 : n = 0
  · simp [h0]
  · rw [if_neg h0, checkStackSkills_positions]

theorem emod_toNat_lt (c : ℤ) (m : ℕ) (hm : 0 < m) : (c.emod m).toNat < m := by
  have h1 : 0 ≤ c.emod m := Int.emod_nonneg c (by exact_mod_cast hm.ne')
  have h2 : c.emod m < m := Int.emod_lt_of_pos c (by exact_mod_cast hm)
  omega

theorem recLookup_insert_self (l : List (ℕ × List Player)) (c : ℕ)
    (g : List Player) : recLookup (recInsert l c g) c = some g := by
  simp [recInsert, recLookup]

/-! ### The turn pipeline never consumes permutation draws -/

theorem roll_dice_rng (p : Player) (r : RNG) :
    ((roll_dice p r).2.permSrc, (roll_dice p r).2.np) = (r.permSrc, r.np) := by
  unfold roll_dice randint choice2
  split
  · rfl
  · split <;> rfl

theorem apply_pre_skills_rng (p : Player) (b : Board) (base : ℤ)
    (ti : TurnInfo) (r : RNG) :
    ∀ res, apply_pre_skills p b base ti r = some res →
      (res.2.permSrc, res.2.np) = (r.permSrc, r.np) := by
  intro res h
  unfold apply_pre_skills popFloat at h
  cases hsk : skillType p <;> rw [hsk] at h <;> dsimp only at h <;>
    (try split at h) <;>
    first
    | (injection h with h2
       subst h2
       rfl)
    | simp at h

theorem check_solo_move_rng (p : Player) (r : RNG) :
    ((check_solo_move p r).2.permSrc, (check_solo_move p r).2.np) =
      (r.permSrc, r.np) := by
  unfold check_solo_move popFloat
  split <;> rfl

theorem apply_post_skills_rng (p : Player) (b : Board) (r : RNG) :
    ∀ res, apply_post_skills p b r = some res →
      (res.2.permSrc, res.2.np) = (r.permSrc, r.np) := by
  intro res h
  unfold apply_post_skills popFloat at h
  dsimp only at h
  split at h <;> (try split at h) <;> (try split at h) <;> (try split at h) <;>
    first
    | (injection h with h2
       subst h2
       rfl)
    | simp at h

theorem process_turn_rng (p : Player) (ti : TurnInfo) (b : Board) (r : RNG) :
    ∀ res, process_turn p ti b r = some res →
      (res.2.permSrc, res.2.np) = (r.permSrc, r.np) := by
  intro res h
  unfold process_turn at h
  rcases hrd : roll_dice p r with ⟨dice, r1⟩
  rw [hrd] at h
  dsimp only at h
  rcases hpre : apply_pre_skills p b dice ti r1 with _ | ⟨steps, r2⟩
  · rw [hpre] at h
    exact absurd h (by simp)
  · rw [hpre] at h
    dsimp only at h
    rcases hcs : check_solo_move p r2 with ⟨solo, r3⟩
    rw [hcs] at h
    dsimp only at h
    have h1 : (r1.permSrc, r1.np) = (r.permSrc, r.np) := by
      have hh := roll_dice_rng p r
      rw [hrd] at hh
      exact hh
    have h2 := apply_pre_skills_rng p b dice ti r1 (steps, r2) hpre
    have h3 : (r3.permSrc, r3.np) = (r2.permSrc, r2.np) := by
      have hh := check_solo_move_rng p r2
      rw [hcs] at hh
      exact hh
    have h4 := apply_post_skills_rng p (move_player b p steps solo) r3 res h
    exact h4.trans (h3.trans (h2.trans h1))

theorem adjustScan_rng (b : Board) : ∀ (l : List Player) (i : ℕ) (r : RNG),
    ((adjustScan b l i r).2.permSrc, (adjustScan b l i r).2.np) =
      (r.permSrc, r.np) := by
  intro l
  induction l with
  | nil => intro i r; rfl
  | cons p rest ih =>
    intro i r
    by_cases hc : p = Player.C ∧ skillType p = SkillType.late_move
    · rcases hidx : findPos b p with _ | idx
      · have hstep : adjustScan b (p :: rest) i r = adjustScan b rest (i + 1) r := by
          simp only [adjustScan]
          rw [if_pos hc, hidx]
        rw [hstep]
        exact ih (i + 1) r
      · by_cases hlt : 0 < idxIn p (b.positions.getD idx [])
        · by_cases hq : r.floatSrc r.nf < 65
          · have hstep : adjustScan b (p :: rest) i r =
                (some i, { r with nf := r.nf + 1 }) := by
              simp only [adjustScan]
              rw [if_pos hc, hidx]
              dsimp only [popFloat]
              rw [if_pos hlt, if_pos hq]
            rw [hstep]
          · have hstep : adjustScan b (p :: rest) i r =
                adjustScan b rest (i + 1) { r with nf := r.nf + 1 } := by
              simp only [adjustScan]
              rw [if_pos hc, hidx]
              dsimp only [popFloat]
              rw [if_pos hlt, if_neg hq]
            rw [hstep]
            exact ih (i + 1) _
        · have hstep : adjustScan b (p :: rest) i r = adjustScan b rest (i + 1) r := by
            simp only [adjustScan]
            rw [if_pos hc, hidx]
            dsimp only [popFloat]
            rw [if_neg hlt]
          rw [hstep]
          exact ih (i + 1) r
    · have hstep : adjustScan b (p :: rest) i r = adjustScan b rest (i + 1) r := by
        simp only [adjustScan]
        rw [if_neg hc]
      rw [hstep]
      exact ih (i + 1) r

theorem adjust_move_order_rng (b : Board) (ord : List Player) (r : RNG) :
    ((adjust_move_order b ord r).2.permSrc, (adjust_move_order b ord r).2.np) =
      (r.permSrc, r.np) := by
  unfold adjust_move_order
  have h := adjustScan_rng b ord 0 r
  rcases hscan : adjustScan b ord 0 r with ⟨oi, r2⟩
  rw [hscan] at h
  rcases oi with _ | i
  · exact h
  · exact h

theorem runRoundAux_rng (total : ℕ) : ∀ (l : List Player) (i : ℕ) (b : Board)
    (r : RNG) (res : Board × RNG), runRoundAux total l i b r = some res →
      (res.2.permSrc, res.2.np) = (r.permSrc, r.np) := by
  intro l
  induction l with
  | nil =>
    intro i b r res h
    unfold runRoundAux at h
    rcases h with ⟨rfl⟩
    rfl
  | cons p rest ih =>
    intro i b r res h
    unfold runRoundAux at h
    split at h
    · rcases h with ⟨rfl⟩
      rfl
    · rcases hpt : process_turn p ⟨decide (i = 0), decide (i = total - 1)⟩ b r
        with _ | br
      · rw [hpt] at h
        exact absurd h (by simp)
      · rw [hpt] at h
        dsimp only at h
        have h1 := process_turn_rng p ⟨decide (i = 0), decide (i = total - 1)⟩ b r br hpt
        have h2 := ih (i + 1) br.1 br.2 res h
        exact h2.trans h1

end FC

/-! ## Claim theorems -/

/-- C8.  Frozen-game no-op: when the winner is already set, `move_player`
returns without modifying any state, in both the `FullCharacters.py` and
the `main.py` variant, for every token, step count and solo-mode flag. -/
theorem frozen_game_noop (b : FC.Board) (p : FC.Player) (k : ℤ) (s : Bool)
    (m : M.Board) (q : M.Player) (k2 : ℤ) (s2 : Bool)
    (hb : b.winner.isSome) (hm : m.winner.isSome) :
    FC.move_player b p k s = b ∧ M.move_player m q k2 s2 = m := by
  constructor
  · unfold FC.move_player
    simp [hb]
  · unfold M.move_player
    simp [hm]

/-- Witness for C8 at concrete frozen boards. -/
theorem frozen_game_noop_witness :
    FC.move_player FC.exFrozen .G 3 false = FC.exFrozen ∧
    M.move_player M.exFrozen .A 1 true = M.exFrozen :=
  frozen_game_noop FC.exFrozen .G 3 false M.exFrozen .A 1 true (by decide) (by decide)

/-- C9.  `is_last_place` characterization: for a token present in some cell,
`is_last_place` returns `some true` iff no other member of `PLAYERS` that is
found on the board occupies a cell of strictly smaller index (ties at the
same cell do not count as strictly behind). -/
theorem is_last_place_rank (b : FC.Board) (p : FC.Player) (c : ℕ)
    (h : FC.findPos b p = some c) :
    FC.is_last_place b p = some true ↔
      ∀ q ∈ FC.PLAYERS, q ≠ p →
        ∀ d < b.positions.length, FC.findPos b q = some d → c ≤ d := by
  unfold FC.is_last_place
  rw [h]
  simp only [Option.some.injEq, List.all_eq_true, List.mem_filterMap,
    List.mem_filter, decide_eq_true_eq, forall_exists_index, and_imp]
  constructor
  · intro hall q hq hqp d _ hd
    exact hall d q hq (by simpa using hqp) hd
  · intro hall r q hq hqp hd
    exact hall q hq (by simpa using hqp) r (FC.findPos_lt hd) hd

/-- Witness for C9: on `exLeader`, `I` (cell 2) is in last place since the
only other found token `G` is at cell 3. -/
theorem is_last_place_rank_witness :
    FC.is_last_place FC.exLeader .I = some true :=
  (is_last_place_rank FC.exLeader .I 2 (by decide)).mpr (by decide)

/-- C10.  `is_last_place` totality precondition: when the queried token is
not on the board while some other member of `PLAYERS` is, the comparison
against the absent-position sentinel is ill-typed and the operation fails
(modelled by `none`) instead of returning a boolean. -/
theorem is_last_place_absent (b : FC.Board) (p q : FC.Player) (d : ℕ)
    (hp : FC.findPos b p = none) (hq : q ∈ FC.PLAYERS) (hqp : q ≠ p)
    (hd : FC.findPos b q = some d) :
    FC.is_last_place b p = none := by
  unfold FC.is_last_place
  rw [hp]
  have hmem : d ∈ (FC.PLAYERS.filter (· ≠ p)).filterMap (FC.findPos b) := by
    simp only [List.mem_filterMap, List.mem_filter]
    exact ⟨q, ⟨hq, by simpa using hqp⟩, hd⟩
  have hne : ((FC.PLAYERS.filter (· ≠ p)).filterMap (FC.findPos b)).isEmpty = false := by
    rcases hlist : (FC.PLAYERS.filter (· ≠ p)).filterMap (FC.findPos b) with _ | ⟨a, t⟩
    · rw [hlist] at hmem; simp at hmem
    · simp
  simp [hne]
  exact ⟨q, hq, hqp, by simp [hd]⟩

/-- Witness for C10: querying the absent `A` on `exLeader` (where `G` is
present) fails. -/
theorem is_last_place_absent_witness :
    FC.is_last_place FC.exLeader .A = none :=
  is_last_place_absent FC.exLeader .A .G 3 (by decide) (by decide) (by decide) (by decide)

/-- C4 counterexample.  In the `main.py` variant the step-count win check
precedes the relocation: on `exWin` (token `A` at cell 5 with 20 of 23
steps), moving `A` by 3 sets the winner while `A` is still in the source
cell 5 and NOT in the destination cell `(5 + 3) % 23 = 8`, refuting the
claim that the winning token sits in the destination cell when the winner
is set. -/
theorem move_then_win_counterexample :
    M.exWin.winner = none ∧ M.findPos M.exWin .A = some 5 ∧
    (M.move_player M.exWin .A 3 false).winner = some .A ∧
    .A ∈ (M.move_player M.exWin .A 3 false).positions.getD 5 [] ∧
    .A ∉ (M.move_player M.exWin .A 3 false).positions.getD 8 [] := by
  refine ⟨rfl, by decide, rfl, by decide, by decide⟩

/-- C4 (amended).  In the `FullCharacters.py` variant the claim holds: on a
regular winning move the sub-stack is relocated first and only then is the
winner set, so the winner is found in the destination cell 0. -/
theorem move_then_win_check (b : FC.Board) (p : FC.Player) (c : ℕ) (k : ℤ)
    (solo : Bool)
    (hw : b.winner = none) (hf : FC.forcedStep b p k = none)
    (hc : FC.findPos b p = some c)
    (h0 : (((c : ℤ) + k).emod (FC.GRID_COUNT : ℤ)).toNat = 0) :
    (FC.move_player b p k solo).winner = some p ∧
    p ∈ (FC.move_player b p k solo).positions.getD 0 [] := by
  have hlen : 0 < b.positions.length := by
    have := FC.findPos_lt hc
    omega
  have hmove := FC.move_player_regular b p c k solo hw hf hc
  rw [h0] at hmove
  rw [if_pos rfl] at hmove
  constructor
  · rw [hmove]
  · have hpos := FC.move_player_regular_positions b p c 0 k solo hw hf hc h0
    rw [hpos, FC.performMove_positions]
    have haddpos : (FC.addSteps b p k).positions = b.positions := rfl
    rw [haddpos]
    rw [FC.getD_set_self _ 0 _ _ (by simpa using hlen)]
    refine List.mem_append_right _ ?_
    have hmem : p ∈ b.positions.getD c [] := FC.findPos_mem hc
    rcases solo with _ | _
    · unfold FC.movedStack
      simp only [Bool.false_eq_true, if_false]
      rw [FC.idxIn_drop _ p hmem]
      exact List.mem_cons_self _ _
    · unfold FC.movedStack
      simp

/-- Witness for the amended C4: moving `H` by 20 from cell 2 of `exStack`
lands on cell 0 and wins, with `H` present in cell 0. -/
theorem move_then_win_check_witness :
    (FC.move_player FC.exStack .H 20 false).winner = some .H ∧
    .H ∈ (FC.move_player FC.exStack .H 20 false).positions.getD 0 [] :=
  move_then_win_check FC.exStack .H 2 20 false rfl rfl (by decide) (by decide)

/-- C3.  Stack relocation: a non-solo `move_player` relocates the token
together with every token stacked above it (the suffix of the cell from the
token's index), preserving their order, appended after the existing
occupants of the destination; a solo move relocates only the token itself,
leaving the tokens stacked above it in place at the source. -/
theorem stack_relocation (b : FC.Board) (p : FC.Player) (c n : ℕ) (k : ℤ)
    (hlen : b.positions.length = FC.GRID_COUNT)
    (hw : b.winner = none) (hf : FC.forcedStep b p k = none)
    (hc : FC.findPos b p = some c)
    (hn : (((c : ℤ) + k).emod (FC.GRID_COUNT : ℤ)).toNat = n)
    (hnc : n ≠ c) :
    ((FC.move_player b p k false).positions.getD c [] =
        (b.positions.getD c []).take (FC.idxIn p (b.positions.getD c [])) ∧
      (FC.move_player b p k false).positions.getD n [] =
        b.positions.getD n [] ++
          (b.positions.getD c []).drop (FC.idxIn p (b.positions.getD c []))) ∧
    ((FC.move_player b p k true).positions.getD c [] =
        (b.positions.getD c []).take (FC.idxIn p (b.positions.getD c [])) ++
          (b.positions.getD c []).drop (FC.idxIn p (b.positions.getD c []) + 1) ∧
      (FC.move_player b p k true).positions.getD n [] =
        b.positions.getD n [] ++ [p]) := by
  have hclen : c < b.positions.length := FC.findPos_lt hc
  have hnlen : n < b.positions.length := by
    rw [hlen, ← hn]
    exact FC.emod_toNat_lt _ _ (by norm_num [FC.GRID_COUNT])
  have key : ∀ solo : Bool,
      (FC.move_player b p k solo).positions =
        (b.positions.set c (FC.srcAfter (b.positions.getD c []) p solo)).set n
          (b.positions.getD n [] ++ FC.movedStack (b.positions.getD c []) p solo) := by
    intro solo
    rw [FC.move_player_regular_positions b p c n k solo hw hf hc hn,
      FC.performMove_positions]
    have haddpos : (FC.addSteps b p k).positions = b.positions := rfl
    rw [haddpos]
    congr 1
    rw [FC.getD_set_ne _ c n _ _ (fun h => hnc h.symm)]
  constructor
  · constructor
    · rw [key false]
      rw [FC.getD_set_ne _ n c _ _ hnc,
        FC.getD_set_self _ c _ _ (by simpa using hclen)]
      simp [FC.srcAfter]
    · rw [key false]
      rw [FC.getD_set_self _ n _ _ (by simpa using hnlen)]
      simp [FC.movedStack]
  · constructor
    · rw [key true]
      rw [FC.getD_set_ne _ n c _ _ hnc,
        FC.getD_set_self _ c _ _ (by simpa using hclen)]
      simp [FC.srcAfter]
    · rw [key true]
      rw [FC.getD_set_self _ n _ _ (by simpa using hnlen)]
      simp [FC.movedStack]

/-- Witness for C3 on `exStack`: moving `H` (middle of `[G, H, K]` at cell
2) by 5 non-solo drags `K` along to cell 7 behind `L`; solo leaves `K` at
cell 2 with `G`. -/
theorem stack_relocation_witness :
    ((FC.move_player FC.exStack .H 5 false).positions.getD 2 [] = [.G] ∧
      (FC.move_player FC.exStack .H 5 false).positions.getD 7 [] = [.L, .H, .K]) ∧
    ((FC.move_player FC.exStack .H 5 true).positions.getD 2 [] = [.G, .K] ∧
      (FC.move_player FC.exStack .H 5 true).positions.getD 7 [] = [.L, .H]) := by
  have h := stack_relocation FC.exStack .H 2 7 5 rfl rfl rfl (by decide)
    (by decide) (by decide)
  refine ⟨⟨?_, ?_⟩, ⟨?_, ?_⟩⟩
  · rw [h.1.1]; decide
  · rw [h.1.2]; decide
  · rw [h.2.1]; decide
  · rw [h.2.2]; decide

/-- C5 counterexample.  On `exLeader` the destination cell 3 held ONE token
(`G`) before `I` (skill `stack_leader`, flag unset) landed there, yet the
code creates a forced-stack record and sets the flag, because the source
tests the stack size AFTER the landing (`len > 1`), not the size held
before.  This refutes the claimed "if and only if the destination cell
already held at least 2 tokens before". -/
theorem stack_leader_trigger_counterexample :
    (FC.exLeader.positions.getD 3 []).length = 1 ∧
    FC.skillType .I = .stack_leader ∧
    FC.exLeader.skill_states .I = false ∧
    FC.recLookup (FC.move_player FC.exLeader .I 1 false).active_stacks 3 =
      some [.G, .I] ∧
    (FC.move_player FC.exLeader .I 1 false).skill_states .I = true := by
  decide

/-- C5 (amended).  On a regular move of a `stack_leader` token whose
one-shot flag is unset, a forced-stack record holding the destination
cell's full (post-landing) stack contents is created and the flag set IFF
the destination cell holds at least 2 tokens AFTER the moved sub-stack
lands (counting the arriving tokens); once the flag is set, a further
regular move changes no record and the flag stays set. -/
theorem stack_leader_trigger (b : FC.Board) (p : FC.Player) (c n : ℕ)
    (k : ℤ) (solo : Bool)
    (hw : b.winner = none) (hf : FC.forcedStep b p k = none)
    (hc : FC.findPos b p = some c)
    (hn : (((c : ℤ) + k).emod (FC.GRID_COUNT : ℤ)).toNat = n)
    (h0 : n ≠ 0) (hsl : FC.skillType p = .stack_leader) :
    (b.skill_states p = false →
      (((FC.move_player b p k solo).skill_states p = true ∧
        FC.recLookup (FC.move_player b p k solo).active_stacks n =
          some ((FC.move_player b p k solo).positions.getD n [])) ↔
        1 < ((FC.move_player b p k solo).positions.getD n []).length)) ∧
    (b.skill_states p = true →
      ((FC.move_player b p k solo).active_stacks = b.active_stacks ∧
        (FC.move_player b p k solo).skill_states p = true)) := by
  have hmove := FC.move_player_regular b p c k solo hw hf hc
  rw [hn, if_neg h0] at hmove
  set b2 := FC.performMove (FC.addSteps b p k) p c n solo with hb2
  have hstates : b2.skill_states = b.skill_states := rfl
  have hstacks : b2.active_stacks = b.active_stacks := rfl
  constructor
  · intro hflag
    by_cases hbig : 1 < (b2.positions.getD n []).length
    · have hcond : FC.skillType p = .stack_leader ∧ b2.skill_states p = false ∧
          1 < (b2.positions.getD n []).length := ⟨hsl, by rw [hstates]; exact hflag, hbig⟩
      have hck : FC.checkStackSkills b2 p n =
          { b2 with
            active_stacks := FC.recInsert b2.active_stacks n (b2.positions.getD n []),
            skill_states := fun q => if q = p then true else b2.skill_states q } := by
        unfold FC.checkStackSkills
        rw [if_pos hcond]
      rw [hmove, hck]
      constructor
      · intro _
        simpa using hbig
      · intro _
        refine ⟨by simp, ?_⟩
        simpa using FC.recLookup_insert_self b2.active_stacks n (b2.positions.getD n [])
    · have hck : FC.checkStackSkills b2 p n = b2 := by
        unfold FC.checkStackSkills
        rw [if_neg (by
          intro hcond
          exact hbig hcond.2.2)]
      rw [hmove, hck]
      constructor
      · intro hcontr
        rw [hstates, hflag] at hcontr
        exact absurd hcontr.1 (by simp)
      · intro hcontr
        exact absurd hcontr hbig
  · intro hflag
    have hck : FC.checkStackSkills b2 p n = b2 := by
      unfold FC.checkStackSkills
      rw [if_neg (by
        intro hcond
        rw [hstates, hflag] at hcond
        simp at hcond)]
    rw [hmove, hck, hstacks, hstates]
    exact ⟨rfl, hflag⟩

/-- Witness for the amended C5: after `I` lands on cell 3 of `exLeader` the
post-landing stack `[G, I]` has 2 tokens, so the record is created and the
flag set. -/
theorem stack_leader_trigger_witness :
    (FC.move_player FC.exLeader .I 1 false).skill_states .I = true ∧
    FC.recLookup (FC.move_player FC.exLeader .I 1 false).active_stacks 3 =
      some [.G, .I] := by
  have h := ((stack_leader_trigger FC.exLeader .I 2 3 1 false rfl rfl rfl
    (by decide) (by decide) (by decide)).1 rfl).mpr (by decide)
  exact ⟨h.1, h.2.trans (by decide)⟩

/-- C6 counterexample.  One turn of `E` on `exSolo` (stack `[E, D]` at cell
1) with the oracle `exSoloRng`: the dice roll is 1, the first float draw
(0.4 < 0.5) fires the stack-size bonus, so the step total becomes
`1 + (2 - 1) = 2`, but the second, independent float draw (0.6 ≥ 0.5) does
NOT fire solo mode, so `D` is dragged along to cell `(1 + 2) % 23 = 3`.
The bonus was applied without the solo move, refuting the claim that a
single trigger decides both effects together. -/
theorem solo_move_coupling_counterexample :
    (M.process_turn .E M.exSolo M.exSoloRng).map (fun x => x.1.total_steps .E) =
      some 2 ∧
    (M.process_turn .E M.exSolo M.exSoloRng).map (fun x => x.1.positions.getD 3 []) =
      some [.E, .D] ∧
    (M.process_turn .E M.exSolo M.exSoloRng).map (fun x => x.1.positions.getD 1 []) =
      some [] := by
  decide

/-- Helper for C7: every entry of the trace of base orders produced by the
`FullCharacters.py` round loop is a FRESH permutation draw: the i-th started
round uses the i-th draw of the permutation stream from the loop's start. -/
theorem FC.runLoop_trace_fresh : ∀ (fuel : ℕ) (b : FC.Board) (r : FC.RNG) (i : ℕ),
    i < (FC.runLoop fuel b r).2.length →
    (FC.runLoop fuel b r).2.getD i [] = r.permSrc (r.np + i) := by
  intro fuel
  induction fuel with
  | zero => intro b r i h; simp [FC.runLoop] at h
  | succ fuel ih =>
    intro b r i h
    simp only [FC.runLoop] at h ⊢
    by_cases hw : b.winner.isSome
    · rw [if_pos hw] at h
      simp at h
    · rw [if_neg hw] at h ⊢
      dsimp only [FC.sample] at h ⊢
      rcases hadj : FC.adjust_move_order b (r.permSrc r.np) { r with np := r.np + 1 }
        with ⟨cur, r2⟩
      rw [hadj] at h
      dsimp only at h ⊢
      rcases hrr : FC.runRoundAux cur.length cur 0 b r2 with _ | br
      · rw [hrr] at h
        dsimp only at h ⊢
        have hi0 : i = 0 := by simpa using h
        subst hi0
        simp
      · rw [hrr] at h
        dsimp only at h ⊢
        rcases hrl : FC.runLoop fuel br.1 br.2 with ⟨res, tr⟩
        rw [hrl] at h
        dsimp only at h ⊢
        cases i with
        | zero => simp
        | succ j =>
          have hjlen : j < tr.length := by
            simpa using h
          have hih := ih br.1 br.2 j (by rw [hrl]; simpa using hjlen)
          rw [hrl] at hih
          have hadjr := FC.adjust_move_order_rng b (r.permSrc r.np) { r with np := r.np + 1 }
          rw [hadj] at hadjr
          have hrrr := FC.runRoundAux_rng cur.length cur 0 b r2 br hrr
          have hperm : br.2.permSrc = r.permSrc := by
            have e1 : br.2.permSrc = r2.permSrc := congrArg Prod.fst hrrr
            have e2 : r2.permSrc = r.permSrc := congrArg Prod.fst hadjr
            rw [e1, e2]
          have hnp : br.2.np = r.np + 1 := by
            have e1 : br.2.np = r2.np := congrArg Prod.snd hrrr
            have e2 : r2.np = r.np + 1 := congrArg Prod.snd hadjr
            rw [e1, e2]
          rw [List.getD_cons_succ, hih, hperm, hnp]
          congr 1
          omega

/-- Helper for C7: every round of the `main.py` loop uses the SAME stored
`initial_order` as its base order — no entry of the trace differs from it. -/
theorem M.runLoop_trace_fixed : ∀ (fuel : ℕ) (io : List M.Player) (b : M.Board)
    (r : M.RNG) (o : List M.Player), o ∈ (M.runLoop fuel io b r).2 → o = io := by
  intro fuel
  induction fuel with
  | zero => intro io b r o h; simp [M.runLoop] at h
  | succ fuel ih =>
    intro io b r o h
    simp only [M.runLoop] at h
    by_cases hw : b.winner.isSome
    · rw [if_pos hw] at h
      simp at h
    · rw [if_neg hw] at h
      rcases hadj : M.adjust_move_order b io r with ⟨cur, r1⟩
      rw [hadj] at h
      dsimp only at h
      rcases hrr : M.runRound cur b r1 with _ | br
      · rw [hrr] at h
        dsimp only at h
        simpa using h
      · rw [hrr] at h
        dsimp only at h
        rcases hrl : M.runLoop fuel io br.1 br.2 with ⟨res, tr⟩
        rw [hrl] at h
        dsimp only at h
        rcases List.mem_cons.mp h with h1 | h1
        · exact h1
        · exact ih io br.1 br.2 o (by rw [hrl]; exact h1)

/-- C7 counterexample.  Running the `main.py` game for two rounds with the
oracle `exRunRng` (whose permutation stream yields `PLAYERS` first and a
DIFFERENT order ever after): both rounds use the same base order `PLAYERS`,
and the final permutation counter is 1, i.e. only the single pre-loop
`random.sample` was ever consumed — no fresh permutation is drawn inside the
loop, refuting the claim for the `main.py` variant. -/
theorem turn_order_reuse_counterexample :
    (M.run_game 2 M.exRunRng).2 = [M.PLAYERS, M.PLAYERS] ∧
    M.exRunRng.permSrc 0 = M.PLAYERS ∧
    M.exRunRng.permSrc 1 ≠ M.PLAYERS ∧
    (M.run_game 2 M.exRunRng).1.map (fun x => x.2.np) = some 1 := by
  decide

/-- C7 (amended).  In `FullCharacters.py` the base turn order IS re-drawn
from the pseudorandom source every round: the i-th started round of
`run_game` uses the (i+1)-st permutation draw (draw 0 being the pre-loop
draw used for initial placement).  In `main.py` it is NOT: every round's
base order equals the single permutation drawn before the loop. -/
theorem turn_order_per_round :
    (∀ (fuel : ℕ) (r : FC.RNG) (i : ℕ),
      i < (FC.run_game fuel r).2.length →
      (FC.run_game fuel r).2.getD i [] = r.permSrc (r.np + 1 + i)) ∧
    (∀ (fuel : ℕ) (r : M.RNG) (o : List M.Player),
      o ∈ (M.run_game fuel r).2 → o = r.permSrc r.np) := by
  constructor
  · intro fuel r i h
    unfold FC.run_game at h ⊢
    dsimp only [FC.sample] at h ⊢
    rcases hadj : FC.adjust_move_order FC.resetBoard (r.permSrc r.np)
      { r with np := r.np + 1 } with ⟨cur, r2⟩
    rw [hadj] at h
    dsimp only at h ⊢
    have hadjr := FC.adjust_move_order_rng FC.resetBoard (r.permSrc r.np)
      { r with np := r.np + 1 }
    rw [hadj] at hadjr
    have hperm : r2.permSrc = r.permSrc := congrArg Prod.fst hadjr
    have hnp : r2.np = r.np + 1 := congrArg Prod.snd hadjr
    have hfresh := FC.runLoop_trace_fresh fuel
      (FC.init_players FC.resetBoard (r.permSrc r.np)) r2 i h
    rw [hfresh, hperm, hnp]
  · intro fuel r o h
    unfold M.run_game at h
    dsimp only [M.sample] at h
    exact M.runLoop_trace_fixed fuel (r.permSrc r.np) (M.init_players M.resetBoard)
      { r with np := r.np + 1 } o h

/-- Witness for the amended C7: with `exRunRng`, round 1 (index 1) of a
3-round `FullCharacters.py` run uses permutation draw 2, and round 0 of the
`main.py` run uses the pre-loop draw. -/
theorem turn_order_per_round_witness :
    (FC.run_game 3 FC.exRunRng).2.getD 1 [] = FC.exRunRng.permSrc 2 ∧
    (M.run_game 2 M.exRunRng).2.getD 0 [] = M.exRunRng.permSrc 0 := by
  constructor
  · have h := turn_order_per_round.1 3 FC.exRunRng 1 (by decide)
    simpa using h
  · exact turn_order_per_round.2 2 M.exRunRng
      ((M.run_game 2 M.exRunRng).2.getD 0 []) (by decide)

/-- C6 (amended).  In a `solo_move` token's turn the two effects are
decided by two DISTINCT, independently drawn floats: `apply_pre_skills`
consumes draw number `nf` and adds the stack-size bonus iff that draw is
below 0.5, and `check_solo_move` then consumes draw number `nf + 1` and
sets solo mode iff that second draw is below 0.5. -/
theorem solo_move_two_draws (b : M.Board) (base : ℤ) (r : M.RNG) :
    M.apply_pre_skills .E b base r =
      some ((if r.floatSrc r.nf < 50 then
               base + ((M.get_player_stack_size b .E : ℤ) - 1) else base),
            { r with nf := r.nf + 1 }) ∧
    M.check_solo_move .E { r with nf := r.nf + 1 } =
      (decide (r.floatSrc (r.nf + 1) < 50), { r with nf := r.nf + 2 }) := by
  constructor
  · unfold M.apply_pre_skills M.popFloat
    rw [show M.skillType .E = .solo_move from rfl]
    rfl
  · unfold M.check_solo_move M.popFloat
    rw [show M.skillType .E = .solo_move from rfl]
    rfl

/-! ## Occupancy-invariant machinery -/

namespace FC

theorem count_join_set : ∀ (ps : List (List Player)) (i : ℕ) (x : List Player)
    (a : Player), i < ps.length →
    ((ps.set i x).flatten.count a) + ((ps.getD i []).count a) =
      ps.flatten.count a + x.count a := by
  intro ps
  induction ps with
  | nil => intro i x a h; simp at h
  | cons s t ih =>
    intro i x a h
    cases i with
    | zero =>
      simp only [List.set_cons_zero, List.getD_cons_zero, List.flatten_cons,
        List.count_append]
      omega
    | succ j =>
      simp only [List.set_cons_succ, List.getD_cons_succ, List.flatten_cons,
        List.count_append]
      have := ih j x a (by simpa using h)
      omega

theorem count_getD_le_join : ∀ (ps : List (List Player)) (i : ℕ) (a : Player),
    (ps.getD i []).count a ≤ ps.flatten.count a := by
  intro ps
  induction ps with
  | nil => intro i a; simp
  | cons s t ih =>
    intro i a
    cases i with
    | zero => simp [List.flatten_cons, List.count_append]
    | succ j =>
      simp only [List.getD_cons_succ, List.flatten_cons, List.count_append]
      have := ih j a
      omega

theorem mem_join_of_mem_getD {ps : List (List Player)} {i : ℕ} {a : Player}
    (h : a ∈ ps.getD i []) : a ∈ ps.flatten := by
  have h1 : 0 < (ps.getD i []).count a := List.count_pos_iff.mpr h
  have h2 := count_getD_le_join ps i a
  exact List.count_pos_iff.mp (by omega)

theorem occ_cell_nodup {b : Board} (hocc : occInv b) (i : ℕ) :
    (b.positions.getD i []).Nodup := by
  rw [List.nodup_iff_count_le_one]
  intro a
  have h1 := count_getD_le_join b.positions i a
  have h2 := hocc a
  by_cases hm : a ∈ PLAYERS <;> simp [hm] at h2 <;> omega

theorem occ_mem_PLAYERS {b : Board} (hocc : occInv b) {x : Player}
    (h : x ∈ b.positions.flatten) : x ∈ PLAYERS := by
  by_contra hx
  have h2 := hocc x
  rw [if_neg hx] at h2
  have := List.count_pos_iff.mpr h
  omega

theorem findAux_unique : ∀ (l : List (List Player)) (p : Player) (i j : ℕ),
    l.flatten.count p ≤ 1 → p ∈ l.getD j [] → findAux l p i = some (i + j) := by
  intro l
  induction l with
  | nil =>
    intro p i j _ hj
    simp at hj
  | cons s t ih =>
    intro p i j hcount hj
    cases j with
    | zero =>
      simp only [List.getD_cons_zero] at hj
      simp [findAux, hj]
    | succ j2 =>
      simp only [List.getD_cons_succ] at hj
      have hjoin : p ∈ t.flatten := mem_join_of_mem_getD hj
      have hps : p ∉ s := by
        intro hmem
        have c1 : 0 < s.count p := List.count_pos_iff.mpr hmem
        have c2 : 0 < t.flatten.count p := List.count_pos_iff.mpr hjoin
        simp only [List.flatten_cons, List.count_append] at hcount
        omega
      simp only [findAux, if_neg hps]
      have := ih p (i + 1) j2 (by
        simp only [List.flatten_cons, List.count_append] at hcount
        omega) hj
      rw [this]
      congr 1
      omega

theorem findPos_unique {b : Board} (hocc : occInv b) {p : Player} {j : ℕ}
    (hj : p ∈ b.positions.getD j []) : findPos b p = some j := by
  have hmem : p ∈ b.positions.flatten := mem_join_of_mem_getD hj
  have hP : p ∈ PLAYERS := occ_mem_PLAYERS hocc hmem
  have hcount : b.positions.flatten.count p ≤ 1 := by
    have := hocc p
    rw [if_pos hP] at this
    omega
  have := findAux_unique b.positions p 0 j hcount hj
  simpa [findPos] using this

theorem recLookup_erase_some {l : List (ℕ × List Player)} {c c' : ℕ}
    {g : List Player} (h : recLookup (recErase l c) c' = some g) :
    recLookup l c' = some g ∧ c' ≠ c := by
  induction l with
  | nil => simp [recErase, recLookup] at h
  | cons e t ih =>
    by_cases hec : e.1 = c
    · have : recErase (e :: t) c = recErase t c := by
        simp [recErase, hec]
      rw [this] at h
      obtain ⟨h1, h2⟩ := ih h
      refine ⟨?_, h2⟩
      rw [show recLookup (e :: t) c' = if e.1 = c' then some e.2 else recLookup t c'
        from by rcases e with ⟨a, b⟩; rfl]
      rw [if_neg (by rw [hec]; exact fun hc => h2 hc.symm), h1]
    · have : recErase (e :: t) c = e :: recErase t c := by
        simp [recErase, hec]
      rw [this] at h
      rw [show recLookup (e :: recErase t c) c' =
          if e.1 = c' then some e.2 else recLookup (recErase t c) c'
        from by rcases e with ⟨a, b⟩; rfl] at h
      rw [show recLookup (e :: t) c' = if e.1 = c' then some e.2 else recLookup t c'
        from by rcases e with ⟨a, b⟩; rfl]
      by_cases he : e.1 = c'
      · rw [if_pos he] at h ⊢
        exact ⟨h, by rw [← he]; exact hec⟩
      · rw [if_neg he] at h ⊢
        exact ih h

theorem recLookup_insert_ne (l : List (ℕ × List Player)) (c c' : ℕ)
    (g : List Player) (h : c' ≠ c) :
    recLookup (recInsert l c g) c' = recLookup (recErase l c) c' := by
  simp only [recInsert]
  rw [show recLookup ((c, g) :: recErase l c) c' =
      if c = c' then some g else recLookup (recErase l c) c' from rfl]
  rw [if_neg (fun hc => h hc.symm)]

theorem filter_notmem_of_prefix {g l : List Player} (hpre : g <+: l)
    (hnd : l.Nodup) :
    l.filter (fun x => x ∉ g) = l.drop g.length := by
  obtain ⟨t, rfl⟩ := hpre
  rw [List.filter_append]
  have hgn : (g ++ t).Nodup := hnd
  rw [List.nodup_append] at hgn
  have h1 : g.filter (fun x => x ∉ g) = [] := by
    rw [List.filter_eq_nil_iff]
    intro a ha
    simp [ha]
  have h2 : t.filter (fun x => x ∉ g) = t := by
    rw [List.filter_eq_self]
    intro a ha
    simp only [decide_eq_true_eq]
    exact fun hag => hgn.2.2 hag ha
  rw [h1, h2, List.nil_append, List.drop_left]

end FC

namespace FC

theorem prefix_append_right {g l s : List Player} (h : g <+: l) :
    g <+: l ++ s := by
  obtain ⟨t, ht⟩ := h
  exact ⟨t ++ s, by rw [← ht]; simp⟩

theorem findPos_addSteps (b : Board) (q : Player) (k : ℤ) (p : Player) :
    findPos (addSteps b q k) p = findPos b p := rfl

theorem stepLoop_state (k : ℤ) : ∀ (g : List Player) (b : Board),
    (stepLoop k g b).positions = b.positions ∧
    (stepLoop k g b).active_stacks = b.active_stacks ∧
    (stepLoop k g b).skill_states = b.skill_states := by
  intro g
  induction g with
  | nil => intro b; exact ⟨rfl, rfl, rfl⟩
  | cons q rest ih =>
    intro b
    simp only [stepLoop]
    by_cases h0 : findPos (addSteps b q k) q = some 0
    · rw [if_pos h0]
      exact ⟨rfl, rfl, rfl⟩
    · rw [if_neg h0]
      exact ih (addSteps b q k)

theorem stepLoop_no_victory (k : ℤ) : ∀ (g : List Player) (b : Board),
    g.Nodup → (∀ q ∈ g, findPos b q ≠ some 0) →
    ((stepLoop k g b).winner = b.winner ∧
     ∀ q, (stepLoop k g b).total_steps q =
       (if q ∈ g then b.total_steps q + k else b.total_steps q)) := by
  intro g
  induction g with
  | nil =>
    intro b _ _
    exact ⟨rfl, fun q => by simp [stepLoop]⟩
  | cons q0 rest ih =>
    intro b hnd hno
    simp only [stepLoop]
    have h0 : findPos (addSteps b q0 k) q0 ≠ some 0 := by
      rw [findPos_addSteps]
      exact hno q0 (by simp)
    rw [if_neg h0]
    have hnd2 : rest.Nodup := (List.nodup_cons.mp hnd).2
    have hq0 : q0 ∉ rest := (List.nodup_cons.mp hnd).1
    have hno2 : ∀ q ∈ rest, findPos (addSteps b q0 k) q ≠ some 0 := by
      intro q hq
      rw [findPos_addSteps]
      exact hno q (by simp [hq])
    obtain ⟨hw, hs⟩ := ih (addSteps b q0 k) hnd2 hno2
    refine ⟨hw, ?_⟩
    intro q
    rw [hs q]
    by_cases hqr : q ∈ rest
    · rw [if_pos hqr, if_pos (by simp [hqr])]
      have hne : q ≠ q0 := fun h => hq0 (h ▸ hqr)
      show (if q = q0 then b.total_steps q + k else b.total_steps q) + k =
        b.total_steps q + k
      rw [if_neg hne]
    · rw [if_neg hqr]
      by_cases hq0e : q = q0
      · rw [if_pos (by simp [hq0e])]
        show (if q = q0 then b.total_steps q + k else b.total_steps q) =
          b.total_steps q + k
        rw [if_pos hq0e]
      · rw [if_neg (by simp [hqr, hq0e])]
        show (if q = q0 then b.total_steps q + k else b.total_steps q) =
          b.total_steps q
        rw [if_neg hq0e]

theorem stepLoop_victory_head (k : ℤ) (q0 : Player) (rest : List Player)
    (b : Board) (h0 : findPos b q0 = some 0) :
    stepLoop k (q0 :: rest) b = { addSteps b q0 k with winner := some q0 } := by
  simp only [stepLoop]
  rw [if_pos (by rw [findPos_addSteps]; exact h0)]

theorem forcedMid_positions (b : Board) (c n : ℕ) (g : List Player) :
    (forcedMid b c n g).positions =
      (b.positions.set c
          ((b.positions.getD c []).filter (fun x => x ∉ g))).set n
        (((b.positions.set c
            ((b.positions.getD c []).filter (fun x => x ∉ g))).getD n []) ++ g) :=
  rfl

theorem forcedMid_stacks (b : Board) (c n : ℕ) (g : List Player) :
    (forcedMid b c n g).active_stacks = recErase b.active_stacks c := rfl

theorem forcedMid_length (b : Board) (c n : ℕ) (g : List Player) :
    (forcedMid b c n g).positions.length = b.positions.length := by
  rw [forcedMid_positions]
  simp

theorem forcedMid_occ (b : Board) (c n : ℕ) (g : List Player)
    (hocc : occInv b) (hrecInv : recInv b)
    (hrec : recLookup b.active_stacks c = some g)
    (hc : c < b.positions.length) (hn : n < b.positions.length) :
    occInv (forcedMid b c n g) := by
  intro x
  have hpre : g <+: b.positions.getD c [] := hrecInv c g hrec
  have hnd : (b.positions.getD c []).Nodup := occ_cell_nodup hocc c
  have hfil := filter_notmem_of_prefix hpre hnd
  obtain ⟨t, ht⟩ := hpre
  have hdrop : (b.positions.getD c []).drop g.length = t := by
    rw [← ht, List.drop_left]
  have hcount : (b.positions.getD c []).count x =
      g.count x + ((b.positions.getD c []).filter (fun x => x ∉ g)).count x := by
    rw [hfil, hdrop]
    conv_lhs => rw [← ht]
    rw [List.count_append]
  have E1 := count_join_set b.positions c
    ((b.positions.getD c []).filter (fun x => x ∉ g)) x hc
  have E2 := count_join_set
    (b.positions.set c ((b.positions.getD c []).filter (fun x => x ∉ g))) n
    (((b.positions.set c
      ((b.positions.getD c []).filter (fun x => x ∉ g))).getD n []) ++ g) x
    (by simpa using hn)
  rw [List.count_append] at E2
  have hb := hocc x
  rw [forcedMid_positions]
  omega

theorem forcedMid_recInv (b : Board) (c n : ℕ) (g : List Player)
    (hrecInv : recInv b) (hc : c < b.positions.length)
    (hn : n < b.positions.length) :
    recInv (forcedMid b c n g) := by
  intro c2 g2 h
  rw [forcedMid_stacks] at h
  obtain ⟨h1, h2⟩ := recLookup_erase_some h
  have hpre2 := hrecInv c2 g2 h1
  rw [forcedMid_positions]
  by_cases hcn : c2 = n
  · have hnc : n ≠ c := by rw [← hcn]; exact h2
    rw [hcn] at hpre2 ⊢
    rw [getD_set_self _ n _ _ (by simpa using hn)]
    rw [getD_set_ne _ c n _ _ (fun h => hnc h.symm)]
    exact prefix_append_right hpre2
  · rw [getD_set_ne _ n c2 _ _ (fun h => hcn h.symm)]
    rw [getD_set_ne _ c c2 _ _ (fun h => h2 h.symm)]
    exact hpre2

theorem forcedStep_some (b : Board) (p : Player) (k : ℤ) (c : ℕ)
    (g : List Player) (hfind : findPos b p = some c)
    (hrec : recLookup b.active_stacks c = some g) (hmem : p ∈ g) :
    forcedStep b p k = some (stepLoop k g
      (forcedMid b c ((((c : ℤ) + k).emod (GRID_COUNT : ℤ)).toNat) g)) := by
  unfold forcedStep
  simp only [hfind, hrec]
  rw [if_pos hmem]

theorem Inv_of_fields {b b2 : Board} (hInv : Inv b)
    (hp : b2.positions = b.positions)
    (hs : b2.active_stacks = b.active_stacks) : Inv b2 := by
  obtain ⟨hocc, hrecInv, hlen⟩ := hInv
  refine ⟨?_, ?_, ?_⟩
  · intro x
    rw [hp]
    exact hocc x
  · intro c g h
    rw [hs] at h
    rw [hp]
    exact hrecInv c g h
  · rw [hp]
    exact hlen

theorem forcedStep_inv (b : Board) (p : Player) (k : ℤ) {b2 : Board}
    (hInv : Inv b) (h : forcedStep b p k = some b2) : Inv b2 := by
  obtain ⟨hocc, hrecInv, hlen⟩ := hInv
  unfold forcedStep at h
  rcases hfind : findPos b p with _ | c <;> rw [hfind] at h
  · exact absurd h (by simp)
  · dsimp only at h
    rcases hrec : recLookup b.active_stacks c with _ | g <;> rw [hrec] at h
    · exact absurd h (by simp)
    · dsimp only at h
      by_cases hmem : p ∈ g
      · rw [if_pos hmem] at h
        injection h with h
        subst h
        have hc : c < b.positions.length := findPos_lt hfind
        have hnlen : (((c : ℤ) + k).emod (GRID_COUNT : ℤ)).toNat <
            b.positions.length := by
          rw [hlen]
          exact emod_toNat_lt _ _ (by norm_num [GRID_COUNT])
        have hst := stepLoop_state k g
          (forcedMid b c ((((c : ℤ) + k).emod (GRID_COUNT : ℤ)).toNat) g)
        refine Inv_of_fields (b := forcedMid b c _ g) ⟨?_, ?_, ?_⟩ hst.1 hst.2.1
        · exact forcedMid_occ b c _ g hocc hrecInv hrec hc hnlen
        · exact forcedMid_recInv b c _ g hrecInv hc hnlen
        · rw [forcedMid_length]
          exact hlen
      · rw [if_neg hmem] at h
        exact absurd h (by simp)

end FC

namespace FC

theorem performMove_occ (b : Board) (p : Player) (k : ℤ) (solo : Bool)
    (c n : ℕ) (hocc : occInv b) (hfind : findPos b p = some c)
    (hn : n < b.positions.length) :
    occInv (performMove (addSteps b p k) p c n solo) := by
  intro x
  have hc : c < b.positions.length := findPos_lt hfind
  have hmem : p ∈ b.positions.getD c [] := findPos_mem hfind
  have hdecomp := take_idxIn_append (b.positions.getD c []) p hmem
  have hsum : (srcAfter (b.positions.getD c []) p solo).count x +
      (movedStack (b.positions.getD c []) p solo).count x =
      (b.positions.getD c []).count x := by
    rcases solo with _ | _
    · simp only [srcAfter, movedStack, Bool.false_eq_true, if_false]
      conv_rhs => rw [← List.take_append_drop (idxIn p (b.positions.getD c []))
        (b.positions.getD c [])]
      rw [List.count_append]
    · simp only [srcAfter, movedStack, if_true]
      conv_rhs => rw [← hdecomp]
      simp only [List.count_append, List.count_cons, List.count_nil]
      omega
  have E1 := count_join_set b.positions c
    (srcAfter (b.positions.getD c []) p solo) x hc
  have E2 := count_join_set
    (b.positions.set c (srcAfter (b.positions.getD c []) p solo)) n
    (((b.positions.set c (srcAfter (b.positions.getD c []) p solo)).getD n []) ++
      movedStack (b.positions.getD c []) p solo) x (by simpa using hn)
  rw [List.count_append] at E2
  have hb := hocc x
  have hperf := performMove_positions (addSteps b p k) p c n solo
  have haddpos : (addSteps b p k).positions = b.positions := rfl
  rw [haddpos] at hperf
  rw [hperf]
  omega

theorem performMove_recInv (b : Board) (p : Player) (k : ℤ) (solo : Bool)
    (c n : ℕ) (hocc : occInv b) (hrecInv : recInv b)
    (hfind : findPos b p = some c) (hf : forcedStep b p k = none)
    (hn : n < b.positions.length) :
    recInv (performMove (addSteps b p k) p c n solo) := by
  intro c2 g2 h
  have hc : c < b.positions.length := findPos_lt hfind
  have hmem : p ∈ b.positions.getD c [] := findPos_mem hfind
  have hstacks : (performMove (addSteps b p k) p c n solo).active_stacks =
      b.active_stacks := rfl
  rw [hstacks] at h
  have hpre2 := hrecInv c2 g2 h
  have hperf := performMove_positions (addSteps b p k) p c n solo
  have haddpos : (addSteps b p k).positions = b.positions := rfl
  rw [haddpos] at hperf
  rw [hperf]
  have hsrcpre : c2 = c → g2 <+: srcAfter (b.positions.getD c []) p solo := by
    intro he
    subst he
    have hnp : p ∉ g2 := by
      intro hpg
      have := forcedStep_some b p k c2 g2 hfind h hpg
      rw [hf] at this
      exact absurd this (by simp)
    have hi := idxIn_ge_of_prefix g2 (b.positions.getD c2 []) p hpre2 hnp
    rcases solo with _ | _
    · simp only [srcAfter, Bool.false_eq_true, if_false]
      exact prefix_take_of_le g2 _ _ hpre2 hi
    · simp only [srcAfter, if_true]
      exact prefix_append_right (prefix_take_of_le g2 _ _ hpre2 hi)
  by_cases hcn : c2 = n
  · rw [hcn] at hpre2 ⊢
    rw [getD_set_self _ n _ _ (by simpa using hn)]
    by_cases hnc : n = c
    · rw [hnc]
      rw [getD_set_self _ c _ _ (by simpa using hc)]
      exact prefix_append_right (hsrcpre (hcn.trans hnc))
    · rw [getD_set_ne _ c n _ _ (fun h2 => hnc h2.symm)]
      exact prefix_append_right hpre2
  · rw [getD_set_ne _ n c2 _ _ (fun h2 => hcn h2.symm)]
    by_cases hc2c : c2 = c
    · rw [hc2c] at hpre2 ⊢
      rw [getD_set_self _ c _ _ (by simpa using hc)]
      exact hsrcpre hc2c
    · rw [getD_set_ne _ c c2 _ _ (fun h2 => hc2c h2.symm)]
      exact hpre2

theorem checkStackSkills_inv (b : Board) (p : Player) (n : ℕ)
    (hInv : Inv b) : Inv (checkStackSkills b p n) := by
  obtain ⟨hocc, hrecInv, hlen⟩ := hInv
  unfold checkStackSkills
  split
  · refine ⟨?_, ?_, ?_⟩
    · intro x
      exact hocc x
    · intro c2 g2 h
      simp only at h
      by_cases hcn : c2 = n
      · rw [hcn] at h ⊢
        rw [recLookup_insert_self] at h
        injection h with h
        rw [← h]
      · rw [recLookup_insert_ne _ _ _ _ hcn] at h
        obtain ⟨h1, _⟩ := recLookup_erase_some h
        exact hrecInv c2 g2 h1
    · exact hlen
  · exact ⟨hocc, hrecInv, hlen⟩

theorem move_player_inv (b : Board) (p : Player) (k : ℤ) (solo : Bool)
    (hInv : Inv b) : Inv (move_player b p k solo) := by
  unfold move_player
  by_cases hw : b.winner.isSome
  · rw [if_pos hw]
    exact hInv
  · rw [if_neg hw]
    rcases hf : forcedStep b p k with _ | b2
    · dsimp only
      rcases hfind : findPos b p with _ | c
      · exact hInv
      · dsimp only
        have hnlen : (((c : ℤ) + k).emod (GRID_COUNT : ℤ)).toNat <
            b.positions.length := by
          rw [hInv.2.2]
          exact emod_toNat_lt _ _ (by norm_num [GRID_COUNT])
        have hInv4 : Inv (performMove (addSteps b p k) p c
            ((((c : ℤ) + k).emod (GRID_COUNT : ℤ)).toNat) solo) := by
          refine ⟨?_, ?_, ?_⟩
          · exact performMove_occ b p k solo c _ hInv.1 hfind hnlen
          · exact performMove_recInv b p k solo c _ hInv.1 hInv.2.1 hfind hf hnlen
          · have hperf := performMove_positions (addSteps b p k) p c
              ((((c : ℤ) + k).emod (GRID_COUNT : ℤ)).toNat) solo
            rw [hperf]
            simpa using hInv.2.2
        split
        · exact Inv_of_fields hInv4 rfl rfl
        · exact checkStackSkills_inv _ p _ hInv4
    · dsimp only
      exact forcedStep_inv b p k hInv hf

end FC

namespace FC

theorem flatten_replicate_nil : ∀ n : ℕ,
    (List.replicate n ([] : List Player)).flatten = [] := by
  intro n
  induction n with
  | zero => rfl
  | succ m ih => simpa using ih

theorem place_fold (places : List (Player × ℕ)) : ∀ (b0 : Board),
    (∀ pc ∈ places, pc.2 < b0.positions.length) →
    ((places.foldl (fun acc pc => add_player acc pc.1 pc.2) b0).positions.length =
        b0.positions.length ∧
     (places.foldl (fun acc pc => add_player acc pc.1 pc.2) b0).active_stacks =
        b0.active_stacks ∧
     ∀ x, (places.foldl (fun acc pc =>
         add_player acc pc.1 pc.2) b0).positions.flatten.count x =
        b0.positions.flatten.count x + ((places.map Prod.fst).count x)) := by
  induction places with
  | nil =>
    intro b0 _
    exact ⟨rfl, rfl, fun x => by simp⟩
  | cons pc rest ih =>
    intro b0 hlt
    simp only [List.foldl_cons]
    have hpc : pc.2 < b0.positions.length := hlt pc (by simp)
    have hlen1 : (add_player b0 pc.1 pc.2).positions.length =
        b0.positions.length := by
      simp [add_player]
    obtain ⟨l1, l2, l3⟩ := ih (add_player b0 pc.1 pc.2) (by
      intro e he
      rw [hlen1]
      exact hlt e (by simp [he]))
    refine ⟨l1.trans hlen1, l2, ?_⟩
    intro x
    rw [l3 x]
    have E := count_join_set b0.positions pc.2
      (b0.positions.getD pc.2 [] ++ [pc.1]) x hpc
    rw [List.count_append] at E
    have hadd : (add_player b0 pc.1 pc.2).positions =
        b0.positions.set pc.2 (b0.positions.getD pc.2 [] ++ [pc.1]) := rfl
    rw [hadd]
    simp only [List.map_cons]
    by_cases hx : x = pc.1 <;> simp [hx, List.count_cons] at E ⊢ <;> omega

theorem place_all_inv (places : List (Player × ℕ))
    (h1 : List.Perm (places.map Prod.fst) PLAYERS)
    (h2 : ∀ pc ∈ places, pc.2 < GRID_COUNT) : Inv (place_all places) := by
  have hreset : resetBoard.positions.length = GRID_COUNT := by
    simp [resetBoard]
  obtain ⟨l1, l2, l3⟩ := place_fold places resetBoard (by
    intro pc hpc
    rw [hreset]
    exact h2 pc hpc)
  refine ⟨?_, ?_, ?_⟩
  · intro x
    unfold place_all
    rw [l3 x]
    have hz : resetBoard.positions.flatten.count x = 0 := by
      show (List.replicate GRID_COUNT ([] : List Player)).flatten.count x = 0
      rw [flatten_replicate_nil]
      rfl
    rw [hz]
    have hperm := h1.count_eq x
    rw [hperm]
    have : ∀ y : Player, PLAYERS.count y = if y ∈ PLAYERS then 1 else 0 := by
      intro y
      cases y <;> decide
    rw [this x]
    omega
  · intro c g h
    unfold place_all at h
    rw [l2] at h
    simp [resetBoard, recLookup] at h
  · unfold place_all
    rw [l1, hreset]

theorem run_moves_inv (cmds : List (Player × ℤ × Bool)) : ∀ (b : Board),
    Inv b → Inv (run_moves b cmds) := by
  induction cmds with
  | nil => intro b h; exact h
  | cons cmd rest ih =>
    intro b h
    unfold run_moves
    simp only [List.foldl_cons]
    exact ih (move_player b cmd.1 cmd.2.1 cmd.2.2) (move_player_inv b cmd.1 cmd.2.1 cmd.2.2 h)

end FC

/-- C1.  Occupancy invariant: starting from `reset` followed by placing each
member of `PLAYERS` exactly once (at any cells on the track), after ANY
sequence of `move_player` calls the concatenation of all cell contents
contains each token exactly once (so in particular every token that has not
finished occupies exactly one cell, and the cells hold nothing else). -/
theorem occupancy_invariant (places : List (FC.Player × ℕ))
    (cmds : List (FC.Player × ℤ × Bool))
    (h1 : List.Perm (places.map Prod.fst) FC.PLAYERS)
    (h2 : ∀ pc ∈ places, pc.2 < FC.GRID_COUNT) :
    ∀ x : FC.Player,
      (FC.run_moves (FC.place_all places) cmds).positions.flatten.count x =
        if x ∈ FC.PLAYERS then 1 else 0 := by
  intro x
  have hInv := FC.run_moves_inv cmds (FC.place_all places)
    (FC.place_all_inv places h1 h2)
  exact hInv.1 x

/-- Witness for C1: place G–L at cell 1, run a forced-free move sequence,
and count `G` exactly once. -/
theorem occupancy_invariant_witness :
    (FC.run_moves (FC.place_all
        [(.G, 1), (.H, 1), (.I, 1), (.J, 1), (.K, 1), (.L, 1)])
      [(.I, 2, false), (.G, 3, true)]).positions.flatten.count .G = 1 := by
  have h := occupancy_invariant
    [(.G, 1), (.H, 1), (.I, 1), (.J, 1), (.K, 1), (.L, 1)]
    [(.I, 2, false), (.G, 3, true)] (by decide) (by decide) .G
  simpa using h

namespace FC

theorem recLookup_erase_self (l : List (ℕ × List Player)) (c : ℕ) :
    recLookup (recErase l c) c = none := by
  induction l with
  | nil => rfl
  | cons e t ih =>
    by_cases hec : e.1 = c
    · have : recErase (e :: t) c = recErase t c := by simp [recErase, hec]
      rw [this]
      exact ih
    · have : recErase (e :: t) c = e :: recErase t c := by simp [recErase, hec]
      rw [this]
      rw [show recLookup (e :: recErase t c) c =
          if e.1 = c then some e.2 else recLookup (recErase t c) c
        from by rcases e with ⟨a, b⟩; rfl]
      rw [if_neg hec]
      exact ih

theorem recLookup_erase_ne (l : List (ℕ × List Player)) (c c' : ℕ)
    (h : c' ≠ c) : recLookup (recErase l c) c' = recLookup l c' := by
  induction l with
  | nil => rfl
  | cons e t ih =>
    by_cases hec : e.1 = c
    · have h1 : recErase (e :: t) c = recErase t c := by simp [recErase, hec]
      rw [h1]
      rw [show recLookup (e :: t) c' = if e.1 = c' then some e.2 else recLookup t c'
        from by rcases e with ⟨a, b⟩; rfl]
      rw [if_neg (by rw [hec]; exact fun hc => h hc.symm)]
      exact ih
    · have h1 : recErase (e :: t) c = e :: recErase t c := by simp [recErase, hec]
      rw [h1]
      rw [show recLookup (e :: recErase t c) c' =
          if e.1 = c' then some e.2 else recLookup (recErase t c) c'
        from by rcases e with ⟨a, b⟩; rfl]
      rw [show recLookup (e :: t) c' = if e.1 = c' then some e.2 else recLookup t c'
        from by rcases e with ⟨a, b⟩; rfl]
      by_cases he : e.1 = c'
      · rw [if_pos he, if_pos he]
      · rw [if_neg he, if_neg he]
        exact ih

theorem move_player_forced (b : Board) (p : Player) (k : ℤ) (solo : Bool)
    (c : ℕ) (g : List Player) (hw : b.winner = none)
    (hfind : findPos b p = some c)
    (hrec : recLookup b.active_stacks c = some g) (hmem : p ∈ g) :
    move_player b p k solo = stepLoop k g
      (forcedMid b c ((((c : ℤ) + k).emod (GRID_COUNT : ℤ)).toNat) g) := by
  unfold move_player
  simp only [hw, Option.isSome_none, Bool.false_eq_true, if_false,
    forcedStep_some b p k c g hfind hrec hmem]

end FC

/-- C2 counterexample.  On `exForced` (record at cell 1 covering `[I, G]`,
both standing at cell 1), a forced move of `I` by 21 lands the group on cell
0: the step/win loop increments `I`, finds it on cell 0, sets it winner and
BREAKS — so `G`'s step total is NOT incremented by 21, refuting the claim
that every group member's step total is incremented. -/
theorem forced_stack_counterexample :
    FC.recLookup FC.exForced.active_stacks 1 = some [.I, .G] ∧
    (FC.Player.I : FC.Player) ∈ [FC.Player.I, FC.Player.G] ∧
    FC.findPos FC.exForced .I = some 1 ∧
    FC.exForced.winner = none ∧
    FC.exForced.total_steps .G = 0 ∧
    (FC.move_player FC.exForced .I 21 false).winner = some .I ∧
    (FC.move_player FC.exForced .I 21 false).total_steps .G ≠
      FC.exForced.total_steps .G + 21 := by
  decide

/-- C2 (amended).  Forced-stack precedence: with a pending record `(c, g)`
at the mover's cell containing the mover, `move_player` (for ANY solo flag)
consumes the record (leaving other records untouched), relocates the whole
recorded group together to `(c + steps) % GRID_COUNT`, performs no
skill-resolution or stack-leadership processing (skill flags unchanged, no
new record), and increments step totals IN GROUP ORDER STOPPING AT THE
FIRST WINNER: when the destination is not cell 0 every member is
incremented, no winner appears, and a subsequent `move_player` for the same
token takes the regular (non-forced) route; when the destination is cell 0
only the FIRST recorded member is incremented and becomes the winner, and
later members' totals are untouched. -/
theorem forced_stack_move (b : FC.Board) (p : FC.Player) (c n : ℕ) (k : ℤ)
    (solo : Bool) (g : List FC.Player)
    (hInv : FC.Inv b) (hw : b.winner = none)
    (hrec : FC.recLookup b.active_stacks c = some g) (hmem : p ∈ g)
    (hfind : FC.findPos b p = some c)
    (hn : (((c : ℤ) + k).emod (FC.GRID_COUNT : ℤ)).toNat = n) :
    ∀ b2, b2 = FC.move_player b p k solo →
      (FC.recLookup b2.active_stacks c = none ∧
        ∀ c2, c2 ≠ c → FC.recLookup b2.active_stacks c2 =
          FC.recLookup b.active_stacks c2) ∧
      (∀ q ∈ g, q ∈ b2.positions.getD n []) ∧
      (n ≠ c → b2.positions.getD c [] =
        (b.positions.getD c []).filter (fun x => x ∉ g)) ∧
      b2.skill_states = b.skill_states ∧
      (∀ q, q ∉ g → b2.total_steps q = b.total_steps q) ∧
      (n ≠ 0 →
        (b2.winner = none ∧
         (∀ q ∈ g, b2.total_steps q = b.total_steps q + k) ∧
         ∀ k2, FC.forcedStep b2 p k2 = none)) ∧
      (n = 0 →
        (b2.winner = some (g.headD p) ∧
         b2.total_steps (g.headD p) = b.total_steps (g.headD p) + k ∧
         ∀ q ∈ g, q ≠ g.headD p → b2.total_steps q = b.total_steps q)) := by
  intro b2 hb2
  have hmove := FC.move_player_forced b p k solo c g hw hfind hrec hmem
  rw [hn] at hmove
  set M := FC.forcedMid b c n g with hM
  rw [hmove] at hb2
  subst hb2
  have hc : c < b.positions.length := FC.findPos_lt hfind
  have hnlen : n < b.positions.length := by
    rw [hInv.2.2, ← hn]
    exact FC.emod_toNat_lt _ _ (by norm_num [FC.GRID_COUNT])
  have hst := FC.stepLoop_state k g M
  have hgpre : g <+: b.positions.getD c [] := hInv.2.1 c g hrec
  have hgnd : g.Nodup :=
    List.Nodup.sublist hgpre.sublist (FC.occ_cell_nodup hInv.1 c)
  have hoccM : FC.occInv M :=
    FC.forcedMid_occ b c n g hInv.1 hInv.2.1 hrec hc hnlen
  have hMn : M.positions.getD n [] =
      ((b.positions.set c
        ((b.positions.getD c []).filter (fun x => x ∉ g))).getD n []) ++ g := by
    rw [hM, FC.forcedMid_positions]
    exact FC.getD_set_self _ n _ _ (by simpa using hnlen)
  have hmemMn : ∀ q ∈ g, q ∈ M.positions.getD n [] := by
    intro q hq
    rw [hMn]
    exact List.mem_append_right _ hq
  have hfindM : ∀ q ∈ g, FC.findPos M q = some n := fun q hq =>
    FC.findPos_unique hoccM (hmemMn q hq)
  have hMsteps : ∀ q, M.total_steps q = b.total_steps q := fun q => by
    rw [hM]
    rfl
  have hMw : M.winner = b.winner := by
    rw [hM]
    rfl
  have hMss : M.skill_states = b.skill_states := by
    rw [hM]
    rfl
  have hMstacks : M.active_stacks = FC.recErase b.active_stacks c := by
    rw [hM]
    rfl
  have hhd : g.headD p ∈ g := by
    rcases g with _ | ⟨a, t⟩
    · simp at hmem
    · simp
  have hcons : g = g.headD p :: g.tail := by
    rcases g with _ | ⟨a, t⟩
    · simp at hmem
    · rfl
  refine ⟨⟨?_, ?_⟩, ?_, ?_, ?_, ?_, ?_, ?_⟩
  · rw [hst.2.1, hMstacks]
    exact FC.recLookup_erase_self b.active_stacks c
  · intro c2 hc2
    rw [hst.2.1, hMstacks]
    exact FC.recLookup_erase_ne b.active_stacks c c2 hc2
  · intro q hq
    rw [hst.1]
    exact hmemMn q hq
  · intro hnc
    rw [hst.1, hM, FC.forcedMid_positions]
    rw [FC.getD_set_ne _ n c _ _ hnc]
    exact FC.getD_set_self _ c _ _ (by simpa using hc)
  · rw [hst.2.2, hMss]
  · intro q hq
    by_cases hn0 : n = 0
    · have h0 : FC.findPos M (g.headD p) = some 0 := by
        rw [hfindM _ hhd, hn0]
      have hvic := FC.stepLoop_victory_head k (g.headD p) g.tail M h0
      have hstep2 : FC.stepLoop k g M =
          { FC.addSteps M (g.headD p) k with winner := some (g.headD p) } := by
        conv_lhs => rw [hcons]
        exact hvic
      rw [hstep2]
      have hne : q ≠ g.headD p := fun h => hq (h ▸ hhd)
      show (if q = g.headD p then M.total_steps q + k else M.total_steps q) =
        b.total_steps q
      rw [if_neg hne, hMsteps q]
    · have hchar := FC.stepLoop_no_victory k g M hgnd (fun q2 hq2 => by
        rw [hfindM q2 hq2]
        simp [hn0])
      rw [hchar.2 q, if_neg hq, hMsteps q]
  · intro hn0
    have hchar := FC.stepLoop_no_victory k g M hgnd (fun q2 hq2 => by
      rw [hfindM q2 hq2]
      simp [hn0])
    refine ⟨?_, ?_, ?_⟩
    · rw [hchar.1, hMw]
      exact hw
    · intro q hq
      rw [hchar.2 q, if_pos hq, hMsteps q]
    · intro k2
      have hfindb2 : FC.findPos (FC.stepLoop k g M) p = some n := by
        have hpos : FC.findPos (FC.stepLoop k g M) p = FC.findPos M p := by
          unfold FC.findPos
          rw [hst.1]
        rw [hpos]
        exact hfindM p hmem
      unfold FC.forcedStep
      simp only [hfindb2]
      rcases hl : FC.recLookup (FC.stepLoop k g M).active_stacks n with _ | g2
      · rfl
      · rw [hst.2.1, hMstacks] at hl
        obtain ⟨horig, hne⟩ := FC.recLookup_erase_some hl
        have hpre2 := hInv.2.1 n g2 horig
        have hpn : p ∉ g2 := by
          intro hp2
          have hpmem : p ∈ b.positions.getD n [] := hpre2.sublist.subset hp2
          have hfp := FC.findPos_unique hInv.1 hpmem
          rw [hfind] at hfp
          injection hfp with hfp
          exact hne hfp.symm
        dsimp only
        rw [if_neg hpn]
  · intro hn0
    have h0 : FC.findPos M (g.headD p) = some 0 := by
      rw [hfindM _ hhd, hn0]
    have hvic := FC.stepLoop_victory_head k (g.headD p) g.tail M h0
    have hstep2 : FC.stepLoop k g M =
        { FC.addSteps M (g.headD p) k with winner := some (g.headD p) } := by
      conv_lhs => rw [hcons]
      exact hvic
    rw [hstep2]
    refine ⟨rfl, ?_, ?_⟩
    · show (if g.headD p = g.headD p then M.total_steps (g.headD p) + k
        else M.total_steps (g.headD p)) = b.total_steps (g.headD p) + k
      rw [if_pos rfl, hMsteps (g.headD p)]
    · intro q hq hqne
      show (if q = g.headD p then M.total_steps q + k else M.total_steps q) =
        b.total_steps q
      rw [if_neg hqne, hMsteps q]

/-- Witness for the amended C2: on `exForced`, a forced move of `I` by 2
consumes the record at cell 1, moves `I` and `G` together to cell 3,
increments both step totals (destination is not cell 0), sets no winner,
and a subsequent forced check for `I` no longer applies. -/
theorem forced_stack_move_witness :
    FC.recLookup (FC.move_player FC.exForced .I 2 false).active_stacks 1 = none ∧
    FC.Player.G ∈ (FC.move_player FC.exForced .I 2 false).positions.getD 3 [] ∧
    (FC.move_player FC.exForced .I 2 false).winner = none ∧
    (FC.move_player FC.exForced .I 2 false).total_steps .G = 2 ∧
    FC.forcedStep (FC.move_player FC.exForced .I 2 false) .I 1 = none := by
  have hInv : FC.Inv FC.exForced := by
    refine ⟨?_, ?_, ?_⟩
    · intro x
      cases x <;> decide
    · intro c g h
      simp only [FC.recLookup] at h
      by_cases h1 : 1 = c
      · rw [if_pos h1] at h
        injection h with h2
        subst h2
        rw [← h1]
        decide
      · rw [if_neg h1] at h
        exact absurd h (by simp)
    · decide
  have h := forced_stack_move FC.exForced .I 1 3 2 false [.I, .G] hInv rfl
    (by decide) (by decide) (by decide) (by decide)
    (FC.move_player FC.exForced .I 2 false) rfl
  obtain ⟨⟨h1, _⟩, h2, _, _, _, h6, _⟩ := h
  have h6x := h6 (by decide)
  refine ⟨h1, h2 .G (by decide), h6x.1, ?_, h6x.2.2 1⟩
  have hs := h6x.2.1 .G (by decide)
  rw [hs]
  decide
